import Mathlib

/-!
Verification development for the BCoin-Purse block-validation and chain
management engine.

The definitions below are a shallow embedding of the Chain subsystem of
`src/unnamed/part_004` (bcoin `chain.js`), the non-contextual block machinery
of `src/unnamed/part_003` (`abstractblock.js`), and the block-template builder
of `src/node_modules/bcoin/lib/mining/miner.js`.

Modelling conventions:

* Hashes are `Nat`; block bodies that matter only through a few observable
  attributes (size, coinbase height, non-contextual verification result,
  per-block proof) are records carrying those attributes.
* The database (`ChainDB`) is modelled as explicit lists inside the chain
  state: the entry index, the saved-block log, and so on.  `db.save`,
  `db.reconnect` and `db.disconnect` only manipulate those fields.
* Contextual verification (`Chain.verify` / `Chain.verifyContext`) is a large
  collaborator whose internals are irrelevant to the control-flow claims
  below; it is modelled as an oracle `Nat → Option VErr` carried in the
  environment, mapping a block hash to its verification outcome
  (`none` = success, `some e` = a thrown `VerifyError e`).
* JavaScript exceptions are modelled by returning `Cs × Option VErr`: the
  state at the moment of the throw together with the thrown error.  A `some`
  error short-circuits the rest of the translated procedure, exactly like
  a propagating exception.
* Events (`this.emit(...)`) are accumulated in an `events : List Ev` field.
* The invalid block cache is an LRU of capacity 100 in the source
  (`new LRU(100)`).  Modelled from the spec ("fixed-size LRU of block hashes
  known bad"): we model insertion and membership as a set; capacity eviction
  is not modelled, since the claims under study are about insertion.
-/

namespace BCoinPurse

/-- Events emitted by the chain, following the `emit` calls of the source. -/
inductive Ev where
  | tipEv (h : Nat)
  | blockEv (h : Nat)
  | connectEv (h : Nat)
  | disconnectEv (h : Nat)
  | reconnectEv (h : Nat)
  | reorganizeEv (h : Nat)
  | competitorEv (h : Nat)
  | invalidEv (h : Nat)
  | orphanEv (h : Nat)
  | existsEv (h : Nat)
  | resolvedEv (h : Nat)
  | competitorResolvedEv (h : Nat)
  | unresolvedEv (h : Nat)
  | purgeEv (count size : Nat)
  | forkEv (h : Nat)
  | checkpointEv (h : Nat)
  | fullEv
  deriving Repr, DecidableEq

/-- A chain index entry (`ChainEntry`): hash, parent hash, height, cumulative
chainwork and header timestamp.  Chainwork is the 256-bit cumulative sum in
the source (`BN`); modelled as `Nat`. -/
structure Entry where
  hash : Nat
  prevBlock : Nat
  height : Nat
  chainwork : Nat
  ts : Int
  deriving Repr, DecidableEq

/-- A block body, reduced to the attributes the chain control flow observes.
`sanity` is the outcome of the non-contextual `block.verify(ret)` of
`abstractblock.js` (`none` = valid, `some (reason, score)` = failure with that
`VerifyResult`); the body checks behind it (`Block.prototype._verify`) are not
part of the sources under study, so the outcome is carried as data.  `work` is
`proof(bits)` used by `ChainEntry.fromBlock`; `cbHeight` is
`getCoinbaseHeight()` (−1 when absent). -/
structure Blk where
  hash : Nat
  prevBlock : Nat
  size : Nat
  cbHeight : Int
  work : Nat
  ts : Int
  sanity : Option (String × Nat)
  deriving Repr, DecidableEq

/-- A thrown `VerifyError`: type tag, reason, ban score and the `malleated`
flag attached by `Chain.verify`. -/
structure VErr where
  etype : String
  reason : String
  score : Nat
  malleated : Bool
  deriving Repr, DecidableEq

/-- The mutable state of a `Chain` object together with its modelled
database: tip and height, the entry index (`db`), the saved-block log
(hash paired with whether inputs were connected, i.e. whether a coin view was
passed to `db.save`), the invalid cache, the locker's pending set, the two
orphan maps with their accounting, and the sync flags. -/
structure Cs where
  tip : Entry
  height : Nat
  entries : List Entry
  saved : List (Nat × Bool)
  invalid : List Nat
  pending : List Nat
  orphanPrev : List (Nat × Blk)
  orphanMap : List (Nat × Blk)
  orphanCount : Nat
  orphanSize : Nat
  synced : Bool
  checkpoints : Bool
  events : List Ev
  deriving Repr, DecidableEq

/-- The chain's static collaborators: network parameters, the clock
(`util.now()`), and the contextual-verification oracles.  `vrfy h` is the
outcome of `Chain.verify` on the block of hash `h`, `vrfyCtx h` the outcome of
`Chain.verifyContext` (`none` = success). -/
structure Env where
  genesisHash : Nat
  checkpointMap : Nat → Option Nat
  lastCheckpoint : Nat
  maxTipAge : Int
  minChainwork : Nat
  orphanLimit : Nat
  now : Int
  vrfy : Nat → Option VErr
  vrfyCtx : Nat → Option VErr

/-- Append an emitted event (`this.emit(...)`). -/
def emit (s : Cs) (e : Ev) : Cs := { s with events := s.events ++ [e] }

/-- `Chain.setInvalid`: insert a hash into the invalid cache. -/
def setInvalid (s : Cs) (h : Nat) : Cs :=
  if h ∈ s.invalid then s else { s with invalid := h :: s.invalid }

/-- `db.getEntry` on the modelled entry index. -/
def findEntry (s : Cs) (h : Nat) : Option Entry :=
  s.entries.find? (fun e => e.hash == h)

/-- `entry.getPrevious()`: look the parent up in the entry index. -/
def getPrevious (s : Cs) (e : Entry) : Option Entry :=
  findEntry s e.prevBlock

/-- A thrown `assert` / plain `Error` (not a `VerifyError`). -/
def assertErr : VErr := ⟨"assert", "assertion failed", 0, false⟩

/-- A `duplicate` `VerifyError` as thrown by the duplicate guards of
`Chain._add`. -/
def dupErr (score : Nat) : VErr := ⟨"duplicate", "duplicate", score, false⟩

/- Association-list helpers for the two orphan maps (plain JS objects keyed by
hex hash; assignment overwrites, `delete` removes). -/

/-- JS object assignment `map[k] = b` (overwrites an existing binding). -/
def listSet (l : List (Nat × Blk)) (k : Nat) (b : Blk) : List (Nat × Blk) :=
  match l with
  | [] => [(k, b)]
  | (k', b') :: rest =>
    if k' == k then (k, b) :: rest else (k', b') :: listSet rest k b

/-- JS `delete map[k]`. -/
def listDel (l : List (Nat × Blk)) (k : Nat) : List (Nat × Blk) :=
  l.filter (fun p => p.1 ≠ k)

/-- JS lookup `map[k]`. -/
def listGet (l : List (Nat × Blk)) (k : Nat) : Option Blk :=
  (l.find? (fun p => p.1 == k)).map (·.2)

/-- `Chain.storeOrphan`: record the orphan in both maps, bump the counters and
emit `orphan`. -/
def storeOrphan (s : Cs) (b : Blk) : Cs :=
  let s :=
    { s with
      orphanCount := s.orphanCount + 1
      orphanSize := s.orphanSize + b.size
      orphanPrev := listSet s.orphanPrev b.prevBlock b
      orphanMap := listSet s.orphanMap b.hash b }
  emit s (.orphanEv b.hash)

/-- `Chain.resolveOrphan`: remove and return the orphan stored under the given
previous-block hash, if any. -/
def resolveOrphan (s : Cs) (h : Nat) : Cs × Option Blk :=
  match listGet s.orphanPrev h with
  | none => (s, none)
  | some b =>
    ({ s with
        orphanMap := listDel s.orphanMap b.hash
        orphanPrev := listDel s.orphanPrev h
        orphanCount := s.orphanCount - 1
        orphanSize := s.orphanSize - b.size }, some b)

/-- `Chain.purgeOrphans`: clear both maps, emitting `purge` with the old
counters. -/
def purgeOrphans (s : Cs) : Cs :=
  if s.orphanCount == 0 then s
  else
    emit
      { s with orphanPrev := [], orphanMap := [], orphanCount := 0, orphanSize := 0 }
      (.purgeEv s.orphanCount s.orphanSize)

/-- The best/last scan of `Chain.pruneOrphans` over the `orphanPrev` values:
keep the first orphan with the strictly highest coinbase height, and remember
the last one iterated. -/
def pruneBest : List (Nat × Blk) → Option Blk × Option Blk → Option Blk × Option Blk
  | [], acc => acc
  | (_, o) :: rest, (best, _) =>
    let best' :=
      match best with
      | none => some o
      | some b => if o.cbHeight > b.cbHeight then some o else some b
    pruneBest rest (best', some o)

/-- `Chain.pruneOrphans`: when the accumulated orphan size exceeds
`orphanLimit`, drop everything except the orphan with the highest coinbase
height (falling back to the last iterated one when the best has height ≤ 0),
emitting `unresolved` for each dropped orphan and one `purge`. -/
def pruneOrphans (env : Env) (s : Cs) : Cs :=
  if s.orphanSize ≤ env.orphanLimit then s
  else if s.orphanPrev.isEmpty then s
  else
    match pruneBest s.orphanPrev (none, none) with
    | (some best0, some last) =>
      let best := if best0.cbHeight ≤ 0 then last else best0
      let s :=
        s.orphanMap.foldl
          (fun t p => if p.2 == best then t else emit t (.unresolvedEv p.2.hash)) s
      let s := emit s (.purgeEv (s.orphanCount - 1) (s.orphanSize - best.size))
      { s with
        orphanPrev := [(best.prevBlock, best)]
        orphanMap := [(best.hash, best)]
        orphanCount := 1
        orphanSize := best.size }
    | _ => s

/-- `Chain.hasChainwork`: tip chainwork at least the network minimum. -/
def hasChainwork (env : Env) (s : Cs) : Bool :=
  env.minChainwork ≤ s.tip.chainwork

/-- `Chain.maybeSync`: the sync gate.  Note the order of the source: the
checkpoint gate runs first and disables checkpoints as soon as the tip passes
`lastCheckpoint`, before the tip-age and chainwork conditions are examined. -/
def maybeSync (env : Env) (s : Cs) : Cs :=
  if s.synced then s
  else
    let gate : Cs × Bool :=
      if s.checkpoints then
        if s.tip.height < env.lastCheckpoint then (s, true)
        else ({ s with checkpoints := false }, false)
      else (s, false)
    if gate.2 then gate.1
    else
      let s := gate.1
      if s.tip.ts < env.now - env.maxTipAge then s
      else if ¬ hasChainwork env s then s
      else emit { s with synced := true } .fullEv

/-- `Chain.disconnect`: look up the parent, undo the block in the database
(`db.disconnect`; the coin view is not tracked in this model), move the tip
back and emit `tip` then `disconnect`.  The missing-parent `assert` becomes an
`assertErr`. -/
def disconnectOp (s : Cs) (e : Entry) : Cs × Option VErr :=
  match getPrevious s e with
  | none => (s, some assertErr)
  | some prev =>
    let s := { s with tip := prev, height := prev.height }
    let s := emit s (.tipEv prev.hash)
    let s := emit s (.disconnectEv e.hash)
    (s, none)

/-- `Chain.reconnect`: run `verifyContext` on the block; on a `VerifyError`
insert the hash into the invalid cache unless the error is malleated, emit
`invalid`, and rethrow.  On success let `db.reconnect` commit, advance the
tip and emit `tip`, `reconnect`, `connect`. -/
def reconnectOp (env : Env) (s : Cs) (e : Entry) : Cs × Option VErr :=
  match env.vrfyCtx e.hash with
  | some err =>
    let s := if err.malleated then s else setInvalid s e.hash
    let s := emit s (.invalidEv e.hash)
    (s, some err)
  | none =>
    let s := { s with tip := e, height := e.height }
    let s := emit s (.tipEv e.hash)
    let s := emit s (.reconnectEv e.hash)
    let s := emit s (.connectEv e.hash)
    (s, none)

/-- `Chain.findFork`: walk the higher chain back until the heights agree, then
walk both back in lockstep.  The two nested `while` loops of the source are
fused into one fuel-measured recursion with the same result; a missing parent
(`throw new Error`) yields `none`. -/
def findForkAux (s : Cs) : Nat → Entry → Entry → Option Entry
  | 0, _, _ => none
  | fuel + 1, fork, longer =>
    if fork.hash == longer.hash then some fork
    else if fork.height < longer.height then
      match getPrevious s longer with
      | none => none
      | some l => findForkAux s fuel fork l
    else
      match getPrevious s fork with
      | none => none
      | some f => findForkAux s fuel f longer

/-- The entry-collection loops of `Chain.reorganize`: walk from `e` back to
(but excluding) `f`, collecting the entries visited, newest first. -/
def walkTo (s : Cs) : Nat → Entry → Entry → Option (List Entry)
  | 0, _, _ => none
  | fuel + 1, e, f =>
    if e.hash == f.hash then some []
    else
      match getPrevious s e with
      | none => none
      | some p => (walkTo s fuel p f).map (fun l => e :: l)

/-- The disconnect loop of `Chain.reorganize`, with exception propagation. -/
def runDisconnects (s : Cs) : List Entry → Cs × Option VErr
  | [] => (s, none)
  | e :: rest =>
    match disconnectOp s e with
    | (s', none) => runDisconnects s' rest
    | (s', some err) => (s', some err)

/-- The reconnect loop of `Chain.reorganize`, with exception propagation. -/
def runReconnects (env : Env) (s : Cs) : List Entry → Cs × Option VErr
  | [] => (s, none)
  | e :: rest =>
    match reconnectOp env s e with
    | (s', none) => runReconnects env s' rest
    | (s', some err) => (s', some err)

/-- `Chain.reorganize` (non-SPV): find the fork, collect the entries to
disconnect (tip down to the child of the fork) and to connect (competitor down
to the child of the fork), disconnect them newest first, reconnect all but the
competitor itself oldest first, and emit `reorganize`.  `fuel` bounds the
index walks. -/
def reorganizeOp (env : Env) (fuel : Nat) (s : Cs) (competitor : Entry) :
    Cs × Option VErr :=
  let tip := s.tip
  match findForkAux s fuel tip competitor with
  | none => (s, some assertErr)
  | some fork =>
    match walkTo s fuel tip fork, walkTo s fuel competitor fork with
    | some disconnectL, some connectL =>
      match runDisconnects s disconnectL with
      | (s, some err) => (s, some err)
      | (s, none) =>
        match runReconnects env s ((connectL.drop 1).reverse) with
        | (s, some err) => (s, some err)
        | (s, none) => (emit s (.reorganizeEv tip.hash), none)
    | _, _ => (s, some assertErr)

/-- `Chain.setBestChain` (non-SPV): reorganize first when the block does not
extend the current tip, then run `verifyContext` (caching the hash as invalid
on a non-malleated `VerifyError` and emitting `invalid`), then `db.save` the
entry, block and coin view, advance the tip and emit `tip`, `block`,
`connect`. -/
def setBestChainOp (env : Env) (fuel : Nat) (s : Cs) (e : Entry) :
    Cs × Option VErr :=
  let step1 : Cs × Option VErr :=
    if e.prevBlock ≠ s.tip.hash then reorganizeOp env fuel s e else (s, none)
  match step1 with
  | (s, some err) => (s, some err)
  | (s, none) =>
    match env.vrfyCtx e.hash with
    | some err =>
      let s := if err.malleated then s else setInvalid s e.hash
      let s := emit s (.invalidEv e.hash)
      (s, some err)
    | none =>
      let s :=
        { s with
          entries := s.entries ++ [e]
          saved := s.saved ++ [(e.hash, true)]
          tip := e
          height := e.height }
      let s := emit s (.tipEv e.hash)
      let s := emit s (.blockEv e.hash)
      let s := emit s (.connectEv e.hash)
      (s, none)

/-- `Chain.saveAlternate`: run `verify` (contextual but without inputs; on a
`VerifyError` cache the hash as invalid unless malleated, emit `invalid` and
rethrow), then `db.save` the entry and block without a coin view and emit
`competitor`.  The tip and height are untouched. -/
def saveAlternateOp (env : Env) (s : Cs) (e : Entry) : Cs × Option VErr :=
  match env.vrfy e.hash with
  | some err =>
    let s := if err.malleated then s else setInvalid s e.hash
    let s := emit s (.invalidEv e.hash)
    (s, some err)
  | none =>
    let s :=
      { s with
        entries := s.entries ++ [e]
        saved := s.saved ++ [(e.hash, false)] }
    (emit s (.competitorEv e.hash), none)

/-- `Chain.hasInvalid`: a hash is treated as invalid if it is cached, or if
its parent is cached (in which case the hash itself is cached too). -/
def hasInvalidCheck (s : Cs) (h : Nat) (b : Blk) : Cs × Bool :=
  if h ∈ s.invalid then (s, true)
  else if b.prevBlock ∈ s.invalid then (setInvalid s h, true)
  else (s, false)

/-- `Chain.verifyCheckpoint`: compare the hash against the hard-coded
checkpoint for the next height, when checkpoints are active. -/
def verifyCheckpoint (env : Env) (s : Cs) (prev : Entry) (h : Nat) : Cs × Bool :=
  if !s.checkpoints then (s, true)
  else
    match env.checkpointMap (prev.height + 1) with
    | none => (s, true)
    | some cp =>
      if h == cp then (emit s (.checkpointEv h), true)
      else
        let s := purgeOrphans s
        (emit s (.forkEv h), false)

/-- `Chain.seenOrphan`: result is the state, a thrown error (for the
orphan-fork branch, which re-stores the new block and throws `bad-prevblk`)
and whether the block was already a known orphan. -/
def seenOrphanCheck (s : Cs) (b : Blk) : Cs × Option VErr × Bool :=
  match listGet s.orphanPrev b.prevBlock with
  | none => (s, none, false)
  | some orphan =>
    if orphan.hash ≠ b.hash then
      let s := emit s (.forkEv b.hash)
      let s := (resolveOrphan s b.prevBlock).1
      let s := storeOrphan s b
      (s, some ⟨"invalid", "bad-prevblk", 0, false⟩, true)
    else (s, none, true)

/-- `ChainEntry.fromBlock`.  Modelled from the spec: `ChainEntry` is not among
the sources; the spec fixes `chainwork(E) = chainwork(E.parent) + proof(E.bits)`
and height = parent height + 1, with `Blk.work` standing for `proof(bits)`. -/
def mkEntry (prev : Entry) (b : Blk) : Entry :=
  { hash := b.hash
    prevBlock := b.prevBlock
    height := prev.height + 1
    chainwork := prev.chainwork + b.work
    ts := b.ts }

/-- The placement decision at the end of a `Chain._add` iteration: build the
chain entry from the parent, and either `saveAlternate` (when its chainwork
does not exceed the tip's — the `cmp ≤ 0` branch, covering ties, so the
first-seen entry keeps the tip) or `setBestChain`.  The non-initial
iterations additionally emit `competitor resolved` / `resolved`. -/
def placeBlock (env : Env) (fuel : Nat) (s : Cs) (b : Blk) (prev : Entry)
    (initial : Bool) : Cs × Option VErr × Option Entry :=
  let entry := mkEntry prev b
  if entry.chainwork ≤ s.tip.chainwork then
    match saveAlternateOp env s entry with
    | (s, some err) => (s, some err, none)
    | (s, none) =>
      let s := if !initial then emit s (.competitorResolvedEv b.hash) else s
      (s, none, some entry)
  else
    match setBestChainOp env fuel s entry with
    | (s, some err) => (s, some err, none)
    | (s, none) =>
      let s := if !initial then emit s (.resolvedEv b.hash) else s
      (s, none, some entry)

/-- One iteration of the `while (block)` loop of `Chain._add`: the duplicate
guards in source order (genesis, pending, known orphan, invalid cache),
non-contextual `block.verify`, the already-have check, parent lookup (storing
an orphan and throwing `bad-prevblk` when the parent is unknown), the
checkpoint check, then the chainwork placement decision of `placeBlock`
(`saveAlternate` on `chainwork ≤ tip.chainwork`, else `setBestChain`).  The
deserialization of memory blocks is a no-op here (blocks are already
records). -/
def addOne (env : Env) (fuel : Nat) (s : Cs) (b : Blk) (initial : Bool) :
    Cs × Option VErr × Option Entry :=
  let hash := b.hash
  if hash == env.genesisHash then
    (emit s (.existsEv hash), some (dupErr 0), none)
  else if hash ∈ s.pending then
    (emit s (.existsEv hash), some (dupErr 0), none)
  else
    match seenOrphanCheck s b with
    | (s, some err, _) => (s, some err, none)
    | (s, none, true) => (emit s (.orphanEv hash), some (dupErr 0), none)
    | (s, none, false) =>
      match hasInvalidCheck s hash b with
      | (s, true) => (emit s (.invalidEv hash), some (dupErr 100), none)
      | (s, false) =>
        match b.sanity with
        | some rs =>
          (emit s (.invalidEv hash), some ⟨"invalid", rs.1, rs.2, false⟩, none)
        | none =>
          if (findEntry s hash).isSome then
            (emit s (.existsEv hash), some (dupErr 0), none)
          else
            match findEntry s b.prevBlock with
            | none =>
              (storeOrphan s b, some ⟨"invalid", "bad-prevblk", 0, false⟩, none)
            | some prev =>
              match verifyCheckpoint env s prev hash with
              | (s, false) =>
                (s, some ⟨"checkpoint", "checkpoint mismatch", 100, false⟩, none)
              | (s, true) => placeBlock env fuel s b prev initial

/-- `Chain._add`: iterate `addOne` over the block and the orphans it resolves.
A thrown error propagates immediately — in particular it skips the
`pruneOrphans` and `maybeSync` calls that only run after the loop exits
normally.  `result` keeps the first committed entry, as in the source. -/
def addLoop (env : Env) (fuel : Nat) :
    Nat → Cs → Blk → Bool → Option Entry → Cs × Option VErr × Option Entry
  | 0, s, _, _, racc => (s, some assertErr, racc)
  | n + 1, s, b, initial, racc =>
    match addOne env fuel s b initial with
    | (s, some err, _) => (s, some err, racc)
    | (s, none, entryOpt) =>
      let racc := match racc with | none => entryOpt | some r => some r
      match resolveOrphan s b.hash with
      | (s, none) =>
        let s := pruneOrphans env s
        let s := maybeSync env s
        (s, none, racc)
      | (s, some b') => addLoop env fuel n s b' false racc

/-- The sub-stream of `connect`/`disconnect` events, the part of the event
stream the ordering claims constrain. -/
def isChainFlowEv : Ev → Bool
  | .connectEv _ => true
  | .disconnectEv _ => true
  | _ => false

def evFilter (l : List Ev) : List Ev := l.filter isChainFlowEv

/-- The fields of the chain state that `disconnect`/`reconnect` leave
untouched (everything except tip, height and events). -/
structure Preserves (s s' : Cs) : Prop where
  entriesEq : s'.entries = s.entries
  invalidEq : s'.invalid = s.invalid
  savedEq : s'.saved = s.saved
  pendingEq : s'.pending = s.pending
  orphanPrevEq : s'.orphanPrev = s.orphanPrev
  orphanMapEq : s'.orphanMap = s.orphanMap
  orphanCountEq : s'.orphanCount = s.orphanCount
  orphanSizeEq : s'.orphanSize = s.orphanSize
  syncedEq : s'.synced = s.synced
  checkpointsEq : s'.checkpoints = s.checkpoints

namespace VersionBits

/-- BIP9 threshold states (`common.thresholdStates`). -/
def DEFINED : Nat := 0
def STARTED : Nat := 1
def LOCKED_IN : Nat := 2
def ACTIVE : Nat := 3
def FAILED : Nat := 4

/-- A header chain for the versionbits and lock computations: the timestamp
and version of the block at each height.  The chain is total as a function;
the algorithms only look at ancestors of their argument. -/
structure HChain where
  ts : Nat → Nat
  ver : Nat → Nat

/-- A BIP9 deployment row of the network's deployment table. -/
structure Deployment where
  bit : Nat
  startTime : Nat
  timeout : Nat

/-- Ascending insertion into a sorted list of timestamps. -/
def insertTs (x : Nat) : List Nat → List Nat
  | [] => [x]
  | y :: ys => if x ≤ y then x :: y :: ys else y :: insertTs x ys

/-- Insertion sort for the median-time window. -/
def sortTs : List Nat → List Nat
  | [] => []
  | x :: xs => insertTs x (sortTs xs)

/-- Modelled from the spec: `ChainEntry.getMedianTime` is not among the
sources; the spec defines it as the median of the last (up to) 11 entries'
timestamps, taking the middle element of the sorted window. -/
def mtp (c : HChain) (h : Nat) : Nat :=
  let window := (List.range (min 11 (h + 1))).map (fun i => c.ts (h - i))
  (sortTs window).getD (window.length / 2) 0

/-- Modelled from the spec: `ChainEntry.hasBit` is not among the sources; the
spec's STARTED rule counts the blocks of the last period that "set bit
`b`". -/
def hasBit (v bit : Nat) : Bool := v.testBit bit

/-- `entry.getAncestor(entry.height - period)` inside the backward walk of
`Chain.getState`: a negative target height yields no entry. -/
def walkStep (period h : Nat) : Option Nat :=
  if h < period then none else some (h - period)

/-- The boundary adjustment at the top of `Chain.getState`:
`prev.getAncestor(prev.height - ((prev.height + 1) % period))`, with no
entry when the target height is negative. -/
def boundaryOf (period p : Nat) : Option Nat :=
  if (p + 1) % period == 0 then some p
  else if p + 1 < period then none
  else some (p - (p + 1) % period)

/-- The versionbits state cache (`db.stateCache`), keyed by deployment bit
and entry height. -/
abbrev Cache := List ((Nat × Nat) × Nat)

/-- `stateCache.get(bit, entry)` (`none` plays the source's `-1`). -/
def cacheGet (cache : Cache) (bit h : Nat) : Option Nat :=
  (cache.find? (fun e => e.1 == (bit, h))).map (·.2)

/-- `stateCache.set(bit, entry, state)`. -/
def cacheSet (cache : Cache) (bit h st : Nat) : Cache :=
  ((bit, h), st) :: cache

/-- The backward walk of `Chain.getState`: starting from a boundary entry,
stop at a cache hit, or at a boundary whose median time is before the
deployment's start time (caching `DEFINED` there), or past the genesis;
otherwise push the entry onto the compute list and step back one period.
Returns the starting state, the compute list (oldest first; the source pops
a newest-first stack, which is the same traversal) and the updated cache.
The recursion is measured by `fuel`; `getState` passes fuel that suffices
for every positive period. -/
def getStateWalk (c : HChain) (dep : Deployment) (period : Nat) :
    Nat → Cache → Option Nat → Nat × List Nat × Cache
  | _, cache, none => (DEFINED, [], cache)
  | 0, cache, some _ => (DEFINED, [], cache)
  | fuel + 1, cache, some h =>
    match cacheGet cache dep.bit h with
    | some st => (st, [], cache)
    | none =>
      if mtp c h < dep.startTime then
        (DEFINED, [], cacheSet cache dep.bit h DEFINED)
      else
        let r := getStateWalk c dep period fuel cache (walkStep period h)
        (r.1, r.2.1 ++ [h], r.2.2)

/-- The signalling count of the STARTED case of `Chain.getState`: how many of
the `period` blocks ending at height `h` have the deployment bit set.  (The
source's loop breaks once the count reaches the threshold, which does not
change whether `threshold ≤ count` holds.) -/
def countBits (c : HChain) (dep : Deployment) (period h : Nat) : Nat :=
  ((List.range period).filter (fun i => hasBit (c.ver (h - i)) dep.bit)).length

/-- One transition of the forward fold of `Chain.getState` (`switch (state)`),
evaluated at boundary height `h`. -/
def stepState (c : HChain) (dep : Deployment) (period threshold : Nat)
    (st h : Nat) : Nat :=
  if st == DEFINED then
    if dep.timeout ≤ mtp c h then FAILED
    else if dep.startTime ≤ mtp c h then STARTED
    else DEFINED
  else if st == STARTED then
    if dep.timeout ≤ mtp c h then FAILED
    else if threshold ≤ countBits c dep period h then LOCKED_IN
    else STARTED
  else if st == LOCKED_IN then ACTIVE
  else st

/-- The forward fold of `Chain.getState` over the compute list (oldest
first), caching each computed state. -/
def fwdFold (c : HChain) (dep : Deployment) (period threshold : Nat) :
    Nat × Cache → List Nat → Nat × Cache
  | sc, [] => sc
  | (st, cache), h :: rest =>
    let st' := stepState c dep period threshold st h
    fwdFold c dep period threshold (st', cacheSet cache dep.bit h st') rest

/-- `Chain.getState`: adjust `prev` down to the last period boundary, walk
back to a cached or pre-start boundary, then fold forward.  Returns the state
together with the updated cache; a missing previous entry yields
`DEFINED`. -/
def getState (c : HChain) (dep : Deployment) (period threshold : Nat)
    (cache : Cache) : Option Nat → Nat × Cache
  | none => (DEFINED, cache)
  | some p =>
    match boundaryOf period p with
    | none => (DEFINED, cache)
    | some h0 =>
      let r := getStateWalk c dep period (h0 + 1) cache (some h0)
      fwdFold c dep period threshold (r.1, r.2.2) r.2.1

/-- Height of the period boundary with index `k` (the `(k+1)`-th boundary):
the entries at which `(height + 1) % period = 0`. -/
def bh (period k : Nat) : Nat := k * period + (period - 1)

/-- Specification-side BIP9 state, following the claim's words: the threshold
state is evaluated at period boundaries only, starting from `DEFINED` and
applying one transition of the state machine per boundary, from genesis
onward.  `bip9SpecState k` is the state an entry between boundaries `k` and
`k+1` is assigned. -/
def bip9SpecState (c : HChain) (dep : Deployment) (period threshold : Nat) :
    Nat → Nat
  | 0 => stepState c dep period threshold DEFINED (bh period 0)
  | k + 1 =>
    stepState c dep period threshold
      (bip9SpecState c dep period threshold k) (bh period (k + 1))

end VersionBits

namespace Locks

/-- BIP68 sequence-field constants (`protocol/consensus.js`).  Modelled from
the spec/BIP68: the constants module is not among the sources. -/
def SEQUENCE_DISABLE_FLAG : Nat := 2 ^ 31
def SEQUENCE_TYPE_FLAG : Nat := 2 ^ 22
def SEQUENCE_GRANULARITY : Nat := 9
def SEQUENCE_MASK : Nat := 0x0000ffff

/-- Lock-verification flags (`common.lockFlags`).  Modelled from the spec. -/
def VERIFY_SEQUENCE : Nat := 4

/-- A transaction input as `getLocks` observes it: its `sequence` word and
the coin view's answer `view.getHeight(input)` (−1 when unknown). -/
structure TxIn where
  sequence : Nat
  coinHeight : Int
  deriving Repr, DecidableEq

/-- A transaction as `getLocks` observes it. -/
structure Tx where
  coinbase : Bool
  version : Nat
  inputs : List TxIn
  deriving Repr, DecidableEq

/-- The `LockTimes` pair returned by `getLocks`. -/
structure LockTimes where
  height : Int
  time : Int
  deriving Repr, DecidableEq

/-- The loop body of `Chain.getLocks` for one input: skip inputs with the
disable flag; an unknown coin height (−1) counts as `this.height + 1`;
height-type sequences raise `minHeight`, time-type sequences raise
`minTime` using the median time of the ancestor below the coin height. -/
def lockStep (c : VersionBits.HChain) (chainHeight : Nat)
    (acc : LockTimes) (input : TxIn) : LockTimes :=
  let nextHeight : Int := (chainHeight : Int) + 1
  if input.sequence &&& SEQUENCE_DISABLE_FLAG ≠ 0 then acc
  else
    let coinHeight :=
      if input.coinHeight = -1 then nextHeight else input.coinHeight
    if input.sequence &&& SEQUENCE_TYPE_FLAG = 0 then
      let ch := coinHeight + ((input.sequence &&& SEQUENCE_MASK : Nat) : Int) - 1
      { acc with height := max acc.height ch }
    else
      let ancHeight := max (coinHeight - 1) 0
      let coinTime := (VersionBits.mtp c ancHeight.toNat : Int)
        + ((((input.sequence &&& SEQUENCE_MASK) <<< SEQUENCE_GRANULARITY : Nat)) : Int)
        - 1
      { acc with time := max acc.time coinTime }

/-- `Chain.getLocks`.  `chainHeight` is `this.height`, `c` supplies the
timestamps behind `entry.getMedianTimeAsync` (the entries of the chain of
`prev`, which exist at every height the theorems query).  The JS 32-bit
arithmetic never overflows here: `0xffff << 9 < 2^31`. -/
def getLocks (c : VersionBits.HChain) (chainHeight : Nat) (tx : Tx)
    (flags : Nat) : LockTimes :=
  if tx.coinbase = true ∨ tx.version < 2 ∨ flags &&& VERIFY_SEQUENCE = 0 then
    ⟨-1, -1⟩
  else
    tx.inputs.foldl (lockStep c chainHeight) ⟨-1, -1⟩

/-- Specification-side fold for the claim's `minHeight` rule: over the
inputs with the disable flag unset and the type flag unset,
`max(minHeight, inputCoinHeight + (seq & MASK) − 1)`, starting from −1. -/
def specHeightStep (acc : Int) (input : TxIn) : Int :=
  if input.sequence &&& SEQUENCE_DISABLE_FLAG ≠ 0 then acc
  else if input.sequence &&& SEQUENCE_TYPE_FLAG = 0 then
    max acc (input.coinHeight + ((input.sequence &&& SEQUENCE_MASK : Nat) : Int) - 1)
  else acc

/-- Specification-side fold for the claim's `minTime` rule: over the inputs
with the disable flag unset and the type flag set,
`max(minTime, MTP(ancestor(inputCoinHeight − 1)) + ((seq & MASK) << GRANULARITY) − 1)`,
starting from −1. -/
def specTimeStep (c : VersionBits.HChain) (acc : Int) (input : TxIn) : Int :=
  if input.sequence &&& SEQUENCE_DISABLE_FLAG ≠ 0 then acc
  else if input.sequence &&& SEQUENCE_TYPE_FLAG = 0 then acc
  else
    max acc ((VersionBits.mtp c (input.coinHeight - 1).toNat : Int)
      + ((((input.sequence &&& SEQUENCE_MASK) <<< SEQUENCE_GRANULARITY : Nat)) : Int) - 1)

/-- The claim's `minHeight` for a transaction. -/
def seqMinHeight (tx : Tx) : Int := tx.inputs.foldl specHeightStep (-1)

/-- The claim's `minTime` for a transaction. -/
def seqMinTime (c : VersionBits.HChain) (tx : Tx) : Int :=
  tx.inputs.foldl (specTimeStep c) (-1)

/-- `Chain.verifyLocks`: threshold the computed lock times against the next
height and the median time past of `prev`. -/
def verifyLocks (c : VersionBits.HChain) (chainHeight prevHeight : Nat)
    (tx : Tx) (flags : Nat) : Bool :=
  let locks := getLocks c chainHeight tx flags
  if (prevHeight : Int) + 1 ≤ locks.height then false
  else if locks.time = -1 then true
  else if (VersionBits.mtp c prevHeight : Int) ≤ locks.time then false
  else true

end Locks

namespace Mining

/-- A mempool entry as `Miner.build` observes it through `BlockEntry`
(`BlockEntry.fromEntry` lives in `minerblock.js`, outside the sources; its
fields are carried as data): the txid, the prevout txids of the inputs, the
queue priorities, the fee/sigops/weight accounting, the free flag, and the
outcomes of `tx.isFinal(attempt.height, attempt.locktime)` (`fin`) and
`tx.hasWitness()` (`wit`) for the attempt under construction. -/
structure MItem where
  hash : Nat
  inputs : List Nat
  prio : Int
  rate : Int
  fee : Nat
  sigops : Nat
  weight : Nat
  free : Bool
  fin : Bool
  wit : Bool
  deriving Repr, DecidableEq

/-- The miner options `build` consults, plus the attempt's witness flag. -/
structure MinerOpts where
  maxWeight : Nat
  maxSigops : Nat
  priorityWeight : Nat
  minPriority : Int
  minWeight : Nat
  witness : Bool
  deriving Repr, DecidableEq

/-- `mempool.hasTX` over the snapshot. -/
def hasTX (pool : List MItem) (h : Nat) : Bool :=
  pool.any (fun it => it.hash == h)

/-- The initial `item.depCount`: one per input whose prevout tx is in the
mempool.  (`Int`, mirroring the JS number that `--` decrements.) -/
def initDep (pool : List MItem) (it : MItem) : Int :=
  ((it.inputs.filter (fun q => hasTX pool q)).length : Int)

/-- `depMap[p]`: the dependent items pushed while scanning the snapshot --
each item once per input spending `p`, in snapshot order. -/
def depsOf (pool : List MItem) (p : Nat) : List MItem :=
  pool.foldr
    (fun it acc =>
      (it.inputs.filter (fun q => q == p && hasTX pool q)).map (fun _ => it) ++ acc)
    []

/-- `cmpPriority` (the initial queue comparator). -/
def cmpPriority (a b : MItem) : Int := a.prio - b.prio

/-- `cmpRate` (the comparator after the priority phase ends). -/
def cmpRate (a b : MItem) : Int := a.rate - b.rate

/-- Modelled from the spec: `util.binaryInsert` is not among the sources; the
spec's "priority-ordered queue" inserts keeping the list sorted ascending by
the comparator, and `pop` takes the last (greatest) element. -/
def binaryInsert (cmp : MItem → MItem → Int) : List MItem → MItem → List MItem
  | [], x => [x]
  | y :: ys, x => if cmp x y < 0 then x :: y :: ys else y :: binaryInsert cmp ys x

/-- The mutable state of `Miner.build`: the queue with its current-comparator
flag (`priority`), the per-hash dependency counters, and the attempt's
transaction list and accounting. -/
structure BuildSt where
  queue : List MItem
  dep : Nat → Int
  txs : List Nat
  weight : Nat
  sigops : Nat
  fees : Nat
  prioPhase : Bool

/-- The dependent-decrement loop after an item is pushed into the block:
decrement each dependent once per occurrence, pushing it into the queue with
the current comparator the moment its counter reaches exactly zero. -/
def decDeps : List MItem → (Nat → Int) → List MItem → Bool →
    (Nat → Int) × List MItem
  | [], dep, queue, _ => (dep, queue)
  | it :: rest, dep, queue, pp =>
    let d := dep it.hash - 1
    let dep' := fun h => if h == it.hash then d else dep h
    let queue' :=
      if d = 0 then binaryInsert (if pp then cmpPriority else cmpRate) queue it
      else queue
    decDeps rest dep' queue' pp

/-- The initial queue of `Miner.build`: the snapshot items with no in-mempool
parents, inserted in snapshot order under `cmpPriority`. -/
def initQueue (pool : List MItem) : List MItem :=
  (pool.filter (fun it => initDep pool it = 0)).foldl
    (fun q it => binaryInsert cmpPriority q it) []

/-- The initial build state (the block's transaction vector is tracked from
its first mempool transaction; the coinbase constructed by `MinerBlock` sits
before it and never enters the selection loop). -/
def initSt (pool : List MItem) : BuildSt :=
  { queue := initQueue pool
    dep := fun h =>
      match pool.find? (fun it => it.hash == h) with
      | some it => initDep pool it
      | none => 0
    txs := []
    weight := 0
    sigops := 0
    fees := 0
    prioPhase := true }

/-- The selection loop of `Miner.build`: pop the greatest queue item;
skip it if not final, if it carries a witness into a non-witness attempt, or
if it would overflow the weight or sigops budgets; in the priority phase,
re-queue it under `cmpRate` (switching phases) once the priority budget or
threshold is exhausted; in the fee phase skip free items past `minWeight`;
otherwise accept it — account it, append its txid to the block and release
its dependents.  One fuel unit per iteration. -/
def buildLoop (pool : List MItem) (opts : MinerOpts) : Nat → BuildSt → BuildSt
  | 0, st => st
  | n + 1, st =>
    match st.queue.getLast? with
    | none => st
    | some item =>
      let queue := st.queue.dropLast
      if item.fin = false then buildLoop pool opts n { st with queue := queue }
      else if opts.witness = false ∧ item.wit = true then
        buildLoop pool opts n { st with queue := queue }
      else
        let weight := st.weight + item.weight
        if opts.maxWeight < weight then
          buildLoop pool opts n { st with queue := queue }
        else
          let sigops := st.sigops + item.sigops
          if opts.maxSigops < sigops then
            buildLoop pool opts n { st with queue := queue }
          else if st.prioPhase = true ∧
              (opts.priorityWeight < weight ∨ item.prio < opts.minPriority) then
            buildLoop pool opts n
              { st with queue := binaryInsert cmpRate queue item, prioPhase := false }
          else if st.prioPhase = false ∧ item.free = true ∧ opts.minWeight ≤ weight then
            buildLoop pool opts n { st with queue := queue }
          else
            let dq := decDeps (depsOf pool item.hash) st.dep queue st.prioPhase
            buildLoop pool opts n
              { queue := dq.2
                dep := dq.1
                txs := st.txs ++ [item.hash]
                weight := weight
                sigops := sigops
                fees := st.fees + item.fee
                prioPhase := st.prioPhase }

/-- `a` is (the txid of) an in-mempool ancestor of the in-mempool transaction
of txid `h`: the transitive closure of "prevout of an input, itself in the
mempool". -/
inductive AncestorOf (pool : List MItem) : Nat → Nat → Prop where
  | parent {a h : Nat} (it : MItem) :
      it ∈ pool → it.hash = h → a ∈ it.inputs → hasTX pool a = true →
      AncestorOf pool a h
  | trans {a b c : Nat} :
      AncestorOf pool a b → AncestorOf pool b c → AncestorOf pool a c

/-- The number of in-mempool parent occurrences of `it` whose parent is not
yet in the block `txs` — what `depCount` tracks. -/
def remCount (pool : List MItem) (txs : List Nat) (it : MItem) : Nat :=
  (it.inputs.filter (fun q => hasTX pool q && !(txs.contains q))).length

/-- The loop invariant of `Miner.build`: queue members are distinct mempool
items outside the block with no pending parents; `dep` counts the in-mempool
parents not yet in the block; and every block member's in-mempool parents
appear at earlier indices. -/
structure Inv (pool : List MItem) (st : BuildSt) : Prop where
  qPool : ∀ it ∈ st.queue, it ∈ pool
  qNd : (st.queue.map MItem.hash).Nodup
  qNotTx : ∀ it ∈ st.queue, it.hash ∉ st.txs
  txsPool : ∀ h ∈ st.txs, ∃ it, it ∈ pool ∧ it.hash = h
  txsNd : st.txs.Nodup
  depEq : ∀ it ∈ pool, st.dep it.hash = (remCount pool st.txs it : Int)
  qDep0 : ∀ it ∈ st.queue, st.dep it.hash = 0
  ordered : ∀ (k : Nat) (hk : k < st.txs.length) (it : MItem),
    it ∈ pool → it.hash = st.txs.get ⟨k, hk⟩ →
    ∀ q ∈ it.inputs, hasTX pool q = true → q ∈ st.txs.take k

end Mining

/-- The duplicate guards of `Chain._add` that run before non-contextual
verification: not the genesis, not pending in the locker, not a known orphan,
and neither the hash nor its parent in the invalid cache. -/
abbrev PreGuards (env : Env) (s : Cs) (b : Blk) : Prop :=
  b.hash ≠ env.genesisHash ∧ b.hash ∉ s.pending ∧
  listGet s.orphanPrev b.prevBlock = none ∧
  b.hash ∉ s.invalid ∧ b.prevBlock ∉ s.invalid

/-- All guards of `Chain._add` before the placement decision pass: the
duplicate guards, non-contextual verification, the entry not already present,
the parent present, and the checkpoint check trivial. -/
abbrev GuardsPass (env : Env) (s : Cs) (b : Blk) (prev : Entry) : Prop :=
  PreGuards env s b ∧
  b.sanity = none ∧ findEntry s b.hash = none ∧
  findEntry s b.prevBlock = some prev ∧
  (s.checkpoints = false ∨ env.checkpointMap (prev.height + 1) = none)

/-- A successful reorganization context for `e`: the fork and the two walk
lists exist in the index, and contextual verification succeeds on every
entry to reconnect. -/
abbrev ReorgSpec (env : Env) (fuel : Nat) (s : Cs) (e : Entry)
    (fork : Entry) (D C : List Entry) : Prop :=
  findForkAux s fuel s.tip e = some fork ∧
  walkTo s fuel s.tip fork = some D ∧
  walkTo s fuel e fork = some C ∧
  (∀ x ∈ (C.drop 1).reverse, env.vrfyCtx x.hash = none)

/- Concrete scenario used by the counterexamples and witnesses below: the
spec's "simple reorg" — main chain g → a1 → a2 (the tip), alternate entries
b1 → b2 already saved, and a competitor block b3 on top of b2 with more
chainwork than the tip. -/

def gE : Entry := ⟨1, 0, 0, 1, 0⟩
def a1E : Entry := ⟨2, 1, 1, 2, 0⟩
def a2E : Entry := ⟨3, 2, 2, 3, 0⟩
def b1E : Entry := ⟨4, 1, 1, 2, 0⟩
def b2E : Entry := ⟨5, 4, 2, 3, 0⟩
def b3E : Entry := ⟨6, 5, 3, 4, 0⟩

def sBase : Cs :=
  { tip := a2E
    height := 2
    entries := [gE, a1E, a2E, b1E, b2E]
    saved := []
    invalid := []
    pending := []
    orphanPrev := []
    orphanMap := []
    orphanCount := 0
    orphanSize := 0
    synced := false
    checkpoints := false
    events := [] }

/-- Environment in which every contextual verification succeeds. -/
def envOk : Env :=
  { genesisHash := 1
    checkpointMap := fun _ => none
    lastCheckpoint := 0
    maxTipAge := 0
    minChainwork := 0
    orphanLimit := 100
    now := 0
    vrfy := fun _ => none
    vrfyCtx := fun _ => none }

def errB2 : VErr := ⟨"invalid", "bad-txns-inputs-missingorspent", 100, false⟩

/-- Environment in which contextual verification fails (non-malleated) on the
block of hash 5 (`b2`) and succeeds elsewhere. -/
def envB2fail : Env :=
  { envOk with vrfyCtx := fun h => if h == 5 then some errB2 else none }

/-- A block extending `a1` whose entry ties the tip's chainwork (the
side-chain case of the placement decision). -/
def bAlt : Blk := ⟨7, 2, 10, 0, 1, 0, none⟩

/-- A block extending the tip `a2` with more chainwork (the new-tip case). -/
def bBest : Blk := ⟨8, 3, 10, 0, 5, 0, none⟩

/-- A block failing non-contextual verification with the `high-hash` reason. -/
def bBad : Blk := ⟨12, 3, 10, 0, 1, 0, some ("high-hash", 50)⟩

def errAlt : VErr := ⟨"invalid", "bad-diffbits", 100, false⟩

/-- Environment in which `verify` fails (non-malleated) on hash 7. -/
def envVfail : Env :=
  { envOk with vrfy := fun h => if h == 7 then some errAlt else none }

/-- Environment in which `verifyContext` fails (non-malleated) on hash 7. -/
def envC7fail : Env :=
  { envOk with vrfyCtx := fun h => if h == 7 then some errAlt else none }

/-- Environment in which `verifyContext` fails (non-malleated) on hash 8. -/
def envC8fail : Env :=
  { envOk with vrfyCtx := fun h => if h == 8 then some errAlt else none }

/- Concrete scenario for the orphan-limit counterexample: one stored orphan
of size 80 under a limit of 100, and an incoming parent-unknown block of
size 50. -/

def o1B : Blk := ⟨10, 11, 80, 0, 1, 0, none⟩
def bC4 : Blk := ⟨20, 21, 50, 0, 1, 0, none⟩

def sC4 : Cs :=
  { sBase with
    tip := gE
    height := 0
    entries := [gE]
    orphanPrev := [(11, o1B)]
    orphanMap := [(10, o1B)]
    orphanCount := 1
    orphanSize := 80 }

/- Concrete scenario for the sync-gate counterexample: tip past the last
checkpoint but with a stale timestamp. -/

def envC8sync : Env :=
  { envOk with lastCheckpoint := 100, maxTipAge := 10, minChainwork := 5, now := 1000 }

def sC8 : Cs :=
  { sBase with
    tip := ⟨9, 8, 150, 999, 0⟩
    height := 150
    synced := false
    checkpoints := true }

/- Concrete scenario for the chainwork side of the sync gate: tip past the
last checkpoint with a fresh timestamp but chainwork below the network
minimum. -/

def sC8cw : Cs :=
  { sBase with
    tip := ⟨31, 3, 150, 2, 995⟩
    checkpoints := true }

/- Concrete scenario for the miner dependency-order claim: a two-entry
mempool snapshot in which the second transaction spends the first. -/

def itA : Mining.MItem := ⟨1, [], 0, 0, 0, 0, 1, false, true, false⟩

def itB : Mining.MItem := ⟨2, [1], 0, 0, 0, 0, 1, false, true, false⟩

def pool10 : List Mining.MItem := [itA, itB]

def opts10 : Mining.MinerOpts := ⟨100, 100, 100, -10, 0, true⟩

/-! ## Claim C8 — the sync gate (`Chain.maybeSync`) -/

/-- Claim C8, counterexample: `maybeSync` disables checkpoints before the
node reaches the synced state.  In `sC8` the tip is past the last checkpoint
but its timestamp is stale (`tip.ts < now − maxTipAge`), so the claim says
checkpoints must stay enabled (the synced state is not reached); the code
disables them and leaves the node unsynced. -/
theorem c8_counterexample :
    sC8.checkpoints = true ∧ sC8.synced = false ∧
    (maybeSync envC8sync sC8).checkpoints = false ∧
    (maybeSync envC8sync sC8).synced = false ∧
    (maybeSync envC8sync sC8).events = sC8.events := by decide

/-- Claim C8 (amended): `maybeSync` marks the node synced and emits `full`
exactly once, the first time that (a) the tip chainwork reaches the network
minimum, (b) the tip timestamp is at least `now − maxTipAge` and (c) the tip
is past `lastCheckpoint` when checkpoints are enabled; the call is idempotent
afterwards, and each condition is necessary: short of the checkpoint the
state is untouched, and with a stale timestamp or with chainwork below the
minimum the node stays unsynced with no `full` event.  However, checkpoints
are disabled as soon as an unsynced `maybeSync` call sees the tip past
`lastCheckpoint`, even when the timestamp or chainwork conditions still
fail — possibly before the synced state is reached, not upon reaching it. -/
theorem c8_maybeSync_sync_gate
    (env : Env) (s1 s2 s3 s4 s5 : Cs)
    (h1 : s1.synced = true)
    (h2a : s2.synced = false)
    (h2b : s2.checkpoints = true → env.lastCheckpoint ≤ s2.tip.height)
    (h2c : env.now - env.maxTipAge ≤ s2.tip.ts)
    (h2d : env.minChainwork ≤ s2.tip.chainwork)
    (h3a : s3.synced = false)
    (h3b : s3.checkpoints = true)
    (h3c : s3.tip.height < env.lastCheckpoint)
    (h4a : s4.synced = false)
    (h4b : s4.checkpoints = true)
    (h4c : env.lastCheckpoint ≤ s4.tip.height)
    (h4d : s4.tip.ts < env.now - env.maxTipAge)
    (h5a : s5.synced = false)
    (h5b : s5.checkpoints = true)
    (h5c : env.lastCheckpoint ≤ s5.tip.height)
    (h5d : env.now - env.maxTipAge ≤ s5.tip.ts)
    (h5e : s5.tip.chainwork < env.minChainwork) :
    maybeSync env s1 = s1 ∧
    ((maybeSync env s2).synced = true ∧
      (maybeSync env s2).events = s2.events ++ [Ev.fullEv] ∧
      (maybeSync env s2).checkpoints = false ∧
      maybeSync env (maybeSync env s2) = maybeSync env s2) ∧
    maybeSync env s3 = s3 ∧
    ((maybeSync env s4).synced = false ∧
      (maybeSync env s4).checkpoints = false ∧
      (maybeSync env s4).events = s4.events) ∧
    ((maybeSync env s5).synced = false ∧
      (maybeSync env s5).checkpoints = false ∧
      (maybeSync env s5).events = s5.events) := by
  have hnot3 : ¬ (s3.tip.height ≥ env.lastCheckpoint) := by omega
  have hnot4 : ¬ (env.now - env.maxTipAge ≤ s4.tip.ts) := by omega
  refine ⟨?_, ?_, ?_, ?_, ?_⟩
  · simp [maybeSync, h1]
  · by_cases hc : s2.checkpoints = true
    · have hh := h2b hc
      have hh' : ¬ (s2.tip.height < env.lastCheckpoint) := by omega
      have hts : ¬ (s2.tip.ts < env.now - env.maxTipAge) := by omega
      simp [maybeSync, h2a, hc, hh', hts, hasChainwork, h2d, emit]
    · have hc' : s2.checkpoints = false := by
        cases h : s2.checkpoints
        · rfl
        · exact absurd h hc
      have hts : ¬ (s2.tip.ts < env.now - env.maxTipAge) := by omega
      simp [maybeSync, h2a, hc', hts, hasChainwork, h2d, emit]
  · have hh : s3.tip.height < env.lastCheckpoint := h3c
    simp [maybeSync, h3a, h3b, hh]
  · have hh' : ¬ (s4.tip.height < env.lastCheckpoint) := by omega
    simp [maybeSync, h4a, h4b, hh', h4d]
  · have hh' : ¬ (s5.tip.height < env.lastCheckpoint) := by omega
    have hts : ¬ (s5.tip.ts < env.now - env.maxTipAge) := by omega
    have hcw : ¬ (env.minChainwork ≤ s5.tip.chainwork) := by omega
    simp [maybeSync, h5a, h5b, hh', hts, hasChainwork, hcw]

/-- Witness for the amended C8 theorem at concrete states: an already-synced
state, a fully eligible state, an unsynced state short of the checkpoint, the
stale-tip state of the counterexample, and a fresh-tip state whose chainwork
is below the network minimum. -/
theorem c8_maybeSync_sync_gate_witness :
    maybeSync envC8sync { sBase with synced := true } = { sBase with synced := true } ∧
    ((maybeSync envC8sync { sBase with tip := ⟨30, 3, 3, 50, 995⟩ }).synced = true ∧
      (maybeSync envC8sync { sBase with tip := ⟨30, 3, 3, 50, 995⟩ }).events =
        ({ sBase with tip := ⟨30, 3, 3, 50, 995⟩ } : Cs).events ++ [Ev.fullEv] ∧
      (maybeSync envC8sync { sBase with tip := ⟨30, 3, 3, 50, 995⟩ }).checkpoints = false ∧
      maybeSync envC8sync (maybeSync envC8sync { sBase with tip := ⟨30, 3, 3, 50, 995⟩ }) =
        maybeSync envC8sync { sBase with tip := ⟨30, 3, 3, 50, 995⟩ }) ∧
    maybeSync envC8sync { sBase with checkpoints := true } =
      { sBase with checkpoints := true } ∧
    ((maybeSync envC8sync sC8).synced = false ∧
      (maybeSync envC8sync sC8).checkpoints = false ∧
      (maybeSync envC8sync sC8).events = sC8.events) ∧
    ((maybeSync envC8sync sC8cw).synced = false ∧
      (maybeSync envC8sync sC8cw).checkpoints = false ∧
      (maybeSync envC8sync sC8cw).events = sC8cw.events) :=
  c8_maybeSync_sync_gate envC8sync
    { sBase with synced := true }
    { sBase with tip := ⟨30, 3, 3, 50, 995⟩ }
    { sBase with checkpoints := true }
    sC8
    sC8cw
    (by decide) (by decide) (by decide) (by decide) (by decide) (by decide)
    (by decide) (by decide) (by decide) (by decide) (by decide) (by decide)
    (by decide) (by decide) (by decide) (by decide) (by decide)

/-! ## Claim C4 — the orphan store and its limit -/

/-- The best/last scan of `pruneOrphans` keeps values of the scanned list (or
the accumulator it started from). -/
theorem pruneBest_shape (l : List (Nat × Blk)) :
    ∀ b l0 : Blk, ∃ b' l' : Blk,
      pruneBest l (some b, some l0) = (some b', some l') ∧
      (b' = b ∨ b' ∈ l.map Prod.snd) ∧ (l' = l0 ∨ l' ∈ l.map Prod.snd) := by
  induction l with
  | nil => exact fun b l0 => ⟨b, l0, rfl, Or.inl rfl, Or.inl rfl⟩
  | cons x rest ih =>
    intro b l0
    obtain ⟨k, o⟩ := x
    have hstep : pruneBest ((k, o) :: rest) (some b, some l0) =
        pruneBest rest ((if o.cbHeight > b.cbHeight then some o else some b), some o) := rfl
    by_cases hcb : o.cbHeight > b.cbHeight
    · rw [hstep, if_pos hcb]
      obtain ⟨b', l', heq, hb, hl⟩ := ih o o
      refine ⟨b', l', heq, ?_, ?_⟩
      · rcases hb with h | h
        · exact Or.inr (by simp [h])
        · exact Or.inr (by simp [h])
      · rcases hl with h | h
        · exact Or.inr (by simp [h])
        · exact Or.inr (by simp [h])
    · rw [hstep, if_neg hcb]
      obtain ⟨b', l', heq, hb, hl⟩ := ih b o
      refine ⟨b', l', heq, ?_, ?_⟩
      · rcases hb with h | h
        · exact Or.inl h
        · exact Or.inr (by simp [h])
      · rcases hl with h | h
        · exact Or.inr (by simp [h])
        · exact Or.inr (by simp [h])

/-- `Chain._add` when every guard passes but the parent is unknown: the block
is stored as an orphan and `bad-prevblk` is thrown — the throw leaves `_add`
before the `pruneOrphans` call, so no pruning accompanies the store. -/
theorem addOne_orphan_path (env : Env) (fuel : Nat) (s : Cs) (b : Blk)
    (initial : Bool)
    (hpre : PreGuards env s b) (hsan : b.sanity = none)
    (hhe : findEntry s b.hash = none) (hprev : findEntry s b.prevBlock = none) :
    addOne env fuel s b initial =
      (storeOrphan s b, some ⟨"invalid", "bad-prevblk", 0, false⟩, none) := by
  obtain ⟨hg, hp, ho, hi, hip⟩ := hpre
  simp [addOne, hg, hp, seenOrphanCheck, ho, hasInvalidCheck, hi, hip, hsan,
    hhe, hprev]

/-- Claim C4, counterexample: with `orphanLimit = 100` and one stored orphan
of size 80, an `add` of a parent-unknown block of size 50 stores it and
throws, leaving the orphan store at accumulated size 130 > 100. -/
theorem c4_counterexample :
    envOk.orphanLimit = 100 ∧
    sC4.orphanSize = 80 ∧
    (addLoop envOk 10 5 sC4 bC4 true none).2.1 =
      some ⟨"invalid", "bad-prevblk", 0, false⟩ ∧
    (addLoop envOk 10 5 sC4 bC4 true none).1.orphanSize = 130 := by decide

/-- Claim C4 (amended): the bound does not hold at all times.  When `_add`
stores an orphan because its parent is unknown, it throws `bad-prevblk`
immediately, bypassing `pruneOrphans`, so right after such a call the
accumulated orphan size is the old size plus the block's size, which may
exceed `orphanLimit`.  The bound is restored only at the end of an `add`
call that completes normally: there `pruneOrphans` leaves the store
untouched when the size is within the limit, and otherwise reduces it to a
single stored orphan — so the size is again ≤ `orphanLimit` provided every
single block's size is. -/
theorem c4_orphan_store_bound
    (env env2 env3 : Env) (fuel n : Nat) (s s2 s3 : Cs) (b : Blk)
    (hpre : PreGuards env s b)
    (hsan : b.sanity = none)
    (hhe : findEntry s b.hash = none)
    (hprev : findEntry s b.prevBlock = none)
    (hsmall : s2.orphanSize ≤ env2.orphanLimit)
    (hbig : env3.orphanLimit < s3.orphanSize)
    (hne : s3.orphanPrev ≠ []) :
    (addLoop env fuel (n + 1) s b true none =
        (storeOrphan s b, some ⟨"invalid", "bad-prevblk", 0, false⟩, none) ∧
      (storeOrphan s b).orphanSize = s.orphanSize + b.size) ∧
    pruneOrphans env2 s2 = s2 ∧
    ((pruneOrphans env3 s3).orphanCount = 1 ∧
      ∃ best ∈ s3.orphanPrev.map Prod.snd,
        (pruneOrphans env3 s3).orphanSize = best.size ∧
        ((∀ p ∈ s3.orphanPrev, p.2.size ≤ env3.orphanLimit) →
          (pruneOrphans env3 s3).orphanSize ≤ env3.orphanLimit)) := by
  refine ⟨⟨?_, ?_⟩, ?_, ?_⟩
  · show addLoop env fuel (n + 1) s b true none = _
    rw [show addLoop env fuel (n + 1) s b true none =
        (match addOne env fuel s b true with
          | (s, some err, _) => (s, some err, none)
          | (s, none, entryOpt) =>
            match resolveOrphan s b.hash with
            | (s, none) =>
              (maybeSync env (pruneOrphans env s), none, entryOpt)
            | (s, some b') => addLoop env fuel n s b' false entryOpt) from rfl]
    rw [addOne_orphan_path env fuel s b true hpre hsan hhe hprev]
  · simp [storeOrphan, emit]
  · simp [pruneOrphans, hsmall]
  · have hbig' : ¬ (s3.orphanSize ≤ env3.orphanLimit) := by omega
    obtain ⟨x, rest, hx⟩ : ∃ x rest, s3.orphanPrev = x :: rest := by
      cases hl : s3.orphanPrev with
      | nil => exact absurd hl hne
      | cons x rest => exact ⟨x, rest, rfl⟩
    obtain ⟨k, o⟩ := x
    have hstep : pruneBest ((k, o) :: rest) (none, none) =
        pruneBest rest (some o, some o) := rfl
    obtain ⟨b', l', heq, hb, hl'⟩ := pruneBest_shape rest o o
    have hmem : ∀ z : Blk, (z = o ∨ z ∈ rest.map Prod.snd) →
        z ∈ s3.orphanPrev.map Prod.snd := by
      intro z hz
      rw [hx]
      rcases hz with h | h
      · simp [h]
      · simp [h]
    simp only [pruneOrphans, if_neg hbig', hx, List.isEmpty_cons,
      Bool.false_eq_true, if_false, hstep, heq]
    set best := if b'.cbHeight ≤ 0 then l' else b' with hbest
    have hbestmem : best ∈ s3.orphanPrev.map Prod.snd := by
      rw [hbest]
      split
      · exact hmem l' hl'
      · exact hmem b' hb
    refine ⟨by simp, best, by simpa [hx] using hbestmem, by simp, ?_⟩
    intro hall
    obtain ⟨p, hp, hpe⟩ : ∃ p ∈ s3.orphanPrev, p.2 = best := by
      rcases List.mem_map.mp hbestmem with ⟨p, hp, hpe⟩
      exact ⟨p, hp, hpe⟩
    have hp' : p ∈ (k, o) :: rest := hx ▸ hp
    have := hall p hp'
    simp only [hpe] at this
    simpa using this

/-- Witness for the amended C4 theorem: the counterexample state for the
store-and-throw part, the base state for the small-size part, and the
over-limit post-store state for the pruning part. -/
theorem c4_orphan_store_bound_witness :
    (addLoop envOk 10 (4 + 1) sC4 bC4 true none =
        (storeOrphan sC4 bC4, some ⟨"invalid", "bad-prevblk", 0, false⟩, none) ∧
      (storeOrphan sC4 bC4).orphanSize = sC4.orphanSize + bC4.size) ∧
    pruneOrphans envOk sBase = sBase ∧
    ((pruneOrphans envOk (storeOrphan sC4 bC4)).orphanCount = 1 ∧
      ∃ best ∈ (storeOrphan sC4 bC4).orphanPrev.map Prod.snd,
        (pruneOrphans envOk (storeOrphan sC4 bC4)).orphanSize = best.size ∧
        ((∀ p ∈ (storeOrphan sC4 bC4).orphanPrev, p.2.size ≤ envOk.orphanLimit) →
          (pruneOrphans envOk (storeOrphan sC4 bC4)).orphanSize ≤ envOk.orphanLimit)) :=
  c4_orphan_store_bound envOk envOk envOk 10 4 sC4 sBase (storeOrphan sC4 bC4) bC4
    (by decide) (by decide) (by decide) (by decide) (by decide) (by decide)
    (by decide)

/-! ## Claim C9 — non-contextual rejection does not poison the invalid cache -/

/-- `Chain._add` when the duplicate guards pass but non-contextual
`block.verify` fails: emit `invalid` and throw `('invalid', reason, score)`
without touching the invalid cache. -/
theorem addOne_sanity_fail (env : Env) (fuel : Nat) (s : Cs) (b : Blk)
    (initial : Bool) (reason : String) (score : Nat)
    (hpre : PreGuards env s b) (hsan : b.sanity = some (reason, score)) :
    addOne env fuel s b initial =
      (emit s (.invalidEv b.hash), some ⟨"invalid", reason, score, false⟩, none) := by
  obtain ⟨hg, hp, ho, hi, hip⟩ := hpre
  simp [addOne, hg, hp, seenOrphanCheck, ho, hasInvalidCheck, hi, hip, hsan]

/-- Claim C9: when `Chain._add` rejects a block because non-contextual
`block.verify` fails (whatever the reason — including the non-malleated
`high-hash`), the hash is never inserted into the invalid cache, so
resubmitting the identical block re-runs the verification and produces the
same `('invalid', reason)` error, not a `duplicate` rejection from the
cache. -/
theorem c9_sanity_fail_not_cached
    (env : Env) (fuel n : Nat) (s : Cs) (b : Blk) (reason : String) (score : Nat)
    (hpre : PreGuards env s b) (hsan : b.sanity = some (reason, score)) :
    addLoop env fuel (n + 1) s b true none =
      (emit s (.invalidEv b.hash), some ⟨"invalid", reason, score, false⟩, none) ∧
    (addLoop env fuel (n + 1) s b true none).1.invalid = s.invalid ∧
    (addLoop env fuel (n + 1)
        (addLoop env fuel (n + 1) s b true none).1 b true none).2.1 =
      some ⟨"invalid", reason, score, false⟩ := by
  have hstep : ∀ (s' : Cs),
      addLoop env fuel (n + 1) s' b true none =
        (match addOne env fuel s' b true with
          | (s', some err, _) => (s', some err, none)
          | (s', none, entryOpt) =>
            match resolveOrphan s' b.hash with
            | (s', none) =>
              (maybeSync env (pruneOrphans env s'), none, entryOpt)
            | (s', some b') => addLoop env fuel n s' b' false entryOpt) :=
    fun s' => rfl
  obtain ⟨hg, hp, ho, hi, hip⟩ := hpre
  have hrun1 : addLoop env fuel (n + 1) s b true none =
      (emit s (.invalidEv b.hash), some ⟨"invalid", reason, score, false⟩, none) := by
    rw [hstep s, addOne_sanity_fail env fuel s b true reason score ⟨hg, hp, ho, hi, hip⟩ hsan]
  have hpre2 : PreGuards env (emit s (.invalidEv b.hash)) b :=
    ⟨hg, by simpa [emit] using hp, by simpa [emit] using ho,
      by simpa [emit] using hi, by simpa [emit] using hip⟩
  have hrun2 : addLoop env fuel (n + 1) (emit s (.invalidEv b.hash)) b true none =
      (emit (emit s (.invalidEv b.hash)) (.invalidEv b.hash),
        some ⟨"invalid", reason, score, false⟩, none) := by
    rw [hstep _, addOne_sanity_fail env fuel _ b true reason score hpre2 hsan]
  refine ⟨hrun1, by rw [hrun1]; simp [emit], ?_⟩
  rw [hrun1]
  show (addLoop env fuel (n + 1) (emit s (.invalidEv b.hash)) b true none).2.1 = _
  rw [hrun2]

/-- Witness for C9: resubmitting `bBad` (non-contextual failure `high-hash`)
keeps producing the `invalid` error and never touches the cache. -/
theorem c9_sanity_fail_not_cached_witness :
    addLoop envOk 10 (3 + 1) sBase bBad true none =
      (emit sBase (.invalidEv bBad.hash), some ⟨"invalid", "high-hash", 50, false⟩, none) ∧
    (addLoop envOk 10 (3 + 1) sBase bBad true none).1.invalid = sBase.invalid ∧
    (addLoop envOk 10 (3 + 1)
        (addLoop envOk 10 (3 + 1) sBase bBad true none).1 bBad true none).2.1 =
      some ⟨"invalid", "high-hash", 50, false⟩ :=
  c9_sanity_fail_not_cached envOk 10 3 sBase bBad "high-hash" 50 (by decide) (by decide)

/-! ## Shared lemmas about the reorganization machinery -/

theorem preserves_refl (s : Cs) : Preserves s s :=
  ⟨rfl, rfl, rfl, rfl, rfl, rfl, rfl, rfl, rfl, rfl⟩

theorem preserves_trans {s t u : Cs} (h1 : Preserves s t) (h2 : Preserves t u) :
    Preserves s u := by
  obtain ⟨a1, a2, a3, a4, a5, a6, a7, a8, a9, a10⟩ := h1
  obtain ⟨b1, b2, b3, b4, b5, b6, b7, b8, b9, b10⟩ := h2
  exact ⟨b1.trans a1, b2.trans a2, b3.trans a3, b4.trans a4, b5.trans a5,
    b6.trans a6, b7.trans a7, b8.trans a8, b9.trans a9, b10.trans a10⟩

/-- Entry lookups only read the entry index, which `Preserves` fixes. -/
theorem getPrevious_of_preserves {s t : Cs} (h : Preserves s t) (e : Entry) :
    getPrevious t e = getPrevious s e := by
  simp [getPrevious, findEntry, h.entriesEq]

/-- An empty walk means the walk started at the target hash. -/
theorem walkTo_nil {s : Cs} {fuel : Nat} {e f : Entry}
    (h : walkTo s fuel e f = some []) : e.hash = f.hash := by
  cases fuel with
  | zero => simp [walkTo] at h
  | succ n =>
    by_cases hh : e.hash == f.hash
    · exact eq_of_beq hh
    · simp only [walkTo, hh, Bool.false_eq_true, if_false] at h
      cases hp : getPrevious s e with
      | none => simp [hp] at h
      | some p =>
        simp only [hp] at h
        cases hw : walkTo s n p f with
        | none => simp [hw] at h
        | some L => simp [hw] at h

/-- A nonempty walk starts at its source and continues from the parent. -/
theorem walkTo_cons {s : Cs} {fuel : Nat} {e f x : Entry} {L : List Entry}
    (h : walkTo s (fuel + 1) e f = some (x :: L)) :
    x = e ∧ (e.hash == f.hash) = false ∧
      ∃ p, getPrevious s e = some p ∧ walkTo s fuel p f = some L := by
  by_cases hh : e.hash == f.hash
  · simp [walkTo, hh] at h
  · simp only [walkTo, hh, Bool.false_eq_true, if_false] at h
    cases hp : getPrevious s e with
    | none => simp [hp] at h
    | some p =>
      simp only [hp] at h
      cases hw : walkTo s fuel p f with
      | none => simp [hw] at h
      | some L2 =>
        simp only [hw, Option.map_some', Option.some.injEq, List.cons.injEq] at h
        refine ⟨h.1.symm, by simpa using hh, p, rfl, ?_⟩
        rw [hw, h.2]

/-- The disconnect phase of a reorganization: walking the index from `e` down
to `f` and disconnecting every entry on the way succeeds, only moves the
tip/height/events, appends one (filtered) `disconnect` event per entry
newest-first, and ends with the tip at the fork. -/
theorem disconnect_phase :
    ∀ (fuel : Nat) (L : List Entry) (s0 s : Cs) (e f : Entry),
      walkTo s0 fuel e f = some L → Preserves s0 s →
      ∃ s' tr, runDisconnects s L = (s', none) ∧ Preserves s0 s' ∧
        s'.events = s.events ++ tr ∧
        evFilter tr = L.map (fun x => Ev.disconnectEv x.hash) ∧
        (L = [] → s' = s) ∧ (L ≠ [] → s'.tip.hash = f.hash) := by
  intro fuel
  induction fuel with
  | zero => intro L s0 s e f hw; simp [walkTo] at hw
  | succ n ih =>
    intro L s0 s e f hw hp
    cases L with
    | nil =>
      exact ⟨s, [], rfl, hp, by simp, rfl, fun _ => rfl, fun hne => absurd rfl hne⟩
    | cons x L1 =>
      obtain ⟨hxe, -, p, hgp, hw1⟩ := walkTo_cons hw
      subst hxe
      have hgp' : getPrevious s x = some p := by
        rw [getPrevious_of_preserves hp]; exact hgp
      have hdc : disconnectOp s x =
          (emit (emit { s with tip := p, height := p.height } (.tipEv p.hash))
            (.disconnectEv x.hash), none) := by
        simp [disconnectOp, hgp']
      set s1 := emit (emit { s with tip := p, height := p.height } (.tipEv p.hash))
        (.disconnectEv x.hash) with hs1
      have hp1 : Preserves s0 s1 :=
        preserves_trans hp ⟨rfl, rfl, rfl, rfl, rfl, rfl, rfl, rfl, rfl, rfl⟩
      obtain ⟨s', tr1, hrun, hpres, hev, hfil, hnil, hne⟩ :=
        ih L1 s0 s1 p f hw1 hp1
      refine ⟨s', Ev.tipEv p.hash :: Ev.disconnectEv x.hash :: tr1, ?_, hpres, ?_, ?_, ?_, ?_⟩
      · show runDisconnects s (x :: L1) = (s', none)
        rw [show runDisconnects s (x :: L1) =
            (match disconnectOp s x with
              | (s', none) => runDisconnects s' L1
              | (s', some err) => (s', some err)) from rfl]
        rw [hdc]
        exact hrun
      · rw [hev, hs1]
        simp [emit]
      · simp only [evFilter] at hfil ⊢
        simp [isChainFlowEv, hfil]
      · intro hfalse; simp at hfalse
      · intro _
        cases hL1 : L1 with
        | nil =>
          have hs' : s' = s1 := hnil hL1
          have hph : p.hash = f.hash := walkTo_nil (by rwa [hL1] at hw1)
          rw [hs', hs1]
          simpa [emit] using hph
        | cons y ys => exact hne (by simp [hL1])

/-- The reconnect phase when every entry passes contextual verification:
it succeeds, only moves the tip/height/events, appends one (filtered)
`connect` event per entry in order, and ends with the tip at the last entry
(or unmoved when the list is empty). -/
theorem reconnect_phase_ok (env : Env) :
    ∀ (R : List Entry) (s : Cs),
      (∀ x ∈ R, env.vrfyCtx x.hash = none) →
      ∃ s' tr, runReconnects env s R = (s', none) ∧ Preserves s s' ∧
        s'.events = s.events ++ tr ∧
        evFilter tr = R.map (fun x => Ev.connectEv x.hash) ∧
        s'.tip = (R.getLast?).getD s.tip := by
  intro R
  induction R with
  | nil => exact fun s _ => ⟨s, [], rfl, preserves_refl s, by simp, rfl, rfl⟩
  | cons x R1 ih =>
    intro s hall
    have hx : env.vrfyCtx x.hash = none := hall x (by simp)
    have hrc : reconnectOp env s x =
        (emit (emit (emit { s with tip := x, height := x.height } (.tipEv x.hash))
          (.reconnectEv x.hash)) (.connectEv x.hash), none) := by
      simp [reconnectOp, hx]
    set s1 := emit (emit (emit { s with tip := x, height := x.height } (.tipEv x.hash))
      (.reconnectEv x.hash)) (.connectEv x.hash) with hs1
    obtain ⟨s', tr1, hrun, hpres, hev, hfil, htip⟩ :=
      ih s1 (fun y hy => hall y (by simp [hy]))
    refine ⟨s', Ev.tipEv x.hash :: Ev.reconnectEv x.hash :: Ev.connectEv x.hash :: tr1,
      ?_, ?_, ?_, ?_, ?_⟩
    · show runReconnects env s (x :: R1) = (s', none)
      rw [show runReconnects env s (x :: R1) =
          (match reconnectOp env s x with
            | (s', none) => runReconnects env s' R1
            | (s', some err) => (s', some err)) from rfl]
      rw [hrc]
      exact hrun
    · have h01 : Preserves s s1 := ⟨rfl, rfl, rfl, rfl, rfl, rfl, rfl, rfl, rfl, rfl⟩
      exact preserves_trans h01 hpres
    · rw [hev, hs1]; simp [emit]
    · simp only [evFilter] at hfil ⊢
      simp [isChainFlowEv, hfil]
    · rw [htip]
      cases hR1 : R1 with
      | nil => simp [hs1, emit]
      | cons y ys =>
        have hsome : ((y :: ys).getLast?).isSome := by simp
        obtain ⟨z, hz⟩ := Option.isSome_iff_exists.mp hsome
        simp [List.getLast?_cons_cons, hz]

/-- The reconnect phase when an entry fails contextual verification after a
prefix of successes: the error is rethrown and the tip stops at the last
successfully reconnected entry (the starting tip when the first entry
fails). -/
theorem reconnect_phase_fail (env : Env) (bad : Entry) (R2 : List Entry)
    (err : VErr) (hbad : env.vrfyCtx bad.hash = some err) :
    ∀ (R1 : List Entry) (s : Cs),
      (∀ x ∈ R1, env.vrfyCtx x.hash = none) →
      ∃ s', runReconnects env s (R1 ++ bad :: R2) = (s', some err) ∧
        s'.tip = (R1.getLast?).getD s.tip := by
  intro R1
  induction R1 with
  | nil =>
    intro s _
    refine ⟨emit (if err.malleated = true then s else setInvalid s bad.hash)
      (.invalidEv bad.hash), ?_, ?_⟩
    · show runReconnects env s (bad :: R2) = _
      rw [show runReconnects env s (bad :: R2) =
          (match reconnectOp env s bad with
            | (s', none) => runReconnects env s' R2
            | (s', some err) => (s', some err)) from rfl]
      rw [show reconnectOp env s bad =
          (emit (if err.malleated = true then s else setInvalid s bad.hash)
            (.invalidEv bad.hash), some err) by simp [reconnectOp, hbad]]
    · cases hm : err.malleated <;>
        by_cases hin : bad.hash ∈ s.invalid <;>
        simp [hm, hin, emit, setInvalid]
  | cons x R1' ih =>
    intro s hall
    have hx : env.vrfyCtx x.hash = none := hall x (by simp)
    have hrc : reconnectOp env s x =
        (emit (emit (emit { s with tip := x, height := x.height } (.tipEv x.hash))
          (.reconnectEv x.hash)) (.connectEv x.hash), none) := by
      simp [reconnectOp, hx]
    set s1 := emit (emit (emit { s with tip := x, height := x.height } (.tipEv x.hash))
      (.reconnectEv x.hash)) (.connectEv x.hash) with hs1
    obtain ⟨s', hrun, htip⟩ := ih s1 (fun y hy => hall y (by simp [hy]))
    refine ⟨s', ?_, ?_⟩
    · show runReconnects env s ((x :: R1') ++ bad :: R2) = (s', some err)
      rw [show runReconnects env s ((x :: R1') ++ bad :: R2) =
          (match reconnectOp env s x with
            | (s', none) => runReconnects env s' (R1' ++ bad :: R2)
            | (s', some err) => (s', some err)) from rfl]
      rw [hrc]
      exact hrun
    · rw [htip]
      cases hR1 : R1' with
      | nil => simp [hs1, emit]
      | cons y ys =>
        have hsome : ((y :: ys).getLast?).isSome := by simp
        obtain ⟨z, hz⟩ := Option.isSome_iff_exists.mp hsome
        simp [List.getLast?_cons_cons, hz]

/-- A successful reorganization: disconnect the old branch, reconnect the new
one below the competitor; the chain-flow events are exactly the disconnects
(newest first) followed by the connects (oldest first, competitor
excluded). -/
theorem reorganizeOp_ok (env : Env) (fuel : Nat) (s : Cs) (e fork : Entry)
    (D C : List Entry)
    (hf : findForkAux s fuel s.tip e = some fork)
    (hD : walkTo s fuel s.tip fork = some D)
    (hC : walkTo s fuel e fork = some C)
    (hR : ∀ x ∈ (C.drop 1).reverse, env.vrfyCtx x.hash = none) :
    ∃ s' tr, reorganizeOp env fuel s e = (s', none) ∧ Preserves s s' ∧
      s'.events = s.events ++ tr ∧
      evFilter tr = D.map (fun x => Ev.disconnectEv x.hash)
        ++ ((C.drop 1).reverse).map (fun x => Ev.connectEv x.hash) := by
  obtain ⟨s1, tr1, hrun1, hp1, hev1, hfil1, -, -⟩ :=
    disconnect_phase fuel D s s s.tip fork hD (preserves_refl s)
  obtain ⟨s2, tr2, hrun2, hp2, hev2, hfil2, -⟩ :=
    reconnect_phase_ok env ((C.drop 1).reverse) s1 hR
  have hout : reorganizeOp env fuel s e = (emit s2 (.reorganizeEv s.tip.hash), none) := by
    simp only [reorganizeOp, hf, hD, hC, hrun1, hrun2]
  refine ⟨emit s2 (.reorganizeEv s.tip.hash),
    tr1 ++ tr2 ++ [Ev.reorganizeEv s.tip.hash], hout, ?_, ?_, ?_⟩
  · have h2 : Preserves s s2 := preserves_trans hp1 hp2
    exact preserves_trans h2 ⟨rfl, rfl, rfl, rfl, rfl, rfl, rfl, rfl, rfl, rfl⟩
  · simp [emit, hev2, hev1]
  · simp only [evFilter] at hfil1 hfil2 ⊢
    simp [List.filter_append, hfil1, hfil2, isChainFlowEv]

/-- A successful `setBestChain` (with or without a reorganization): no error,
the entry becomes the tip, the entry and block are saved with their coin
view, and the invalid cache is untouched. -/
theorem setBestChainOp_ok (env : Env) (fuel : Nat) (s : Cs) (e : Entry)
    (hv : env.vrfyCtx e.hash = none)
    (hor : e.prevBlock = s.tip.hash ∨
      ∃ fork D C, ReorgSpec env fuel s e fork D C) :
    ∃ s', setBestChainOp env fuel s e = (s', none) ∧
      s'.tip = e ∧ s'.height = e.height ∧
      s'.invalid = s.invalid ∧
      s'.saved = s.saved ++ [(e.hash, true)] ∧
      s'.entries = s.entries ++ [e] := by
  by_cases hpb : e.prevBlock = s.tip.hash
  · have hstep : (if e.prevBlock ≠ s.tip.hash then reorganizeOp env fuel s e
        else (s, none)) = (s, none) := by simp [hpb]
    refine ⟨emit (emit (emit
        { s with
          entries := s.entries ++ [e]
          saved := s.saved ++ [(e.hash, true)]
          tip := e
          height := e.height } (.tipEv e.hash)) (.blockEv e.hash))
        (.connectEv e.hash), ?_, ?_, ?_, ?_, ?_, ?_⟩ <;>
      simp [setBestChainOp, hstep, hv, emit]
  · have hspec : ∃ fork D C, ReorgSpec env fuel s e fork D C := by
      rcases hor with h | h
      · exact absurd h hpb
      · exact h
    obtain ⟨fork, D, C, hf, hD, hC, hR⟩ := hspec
    obtain ⟨s2, tr, hrun, hpres, -, -⟩ :=
      reorganizeOp_ok env fuel s e fork D C hf hD hC hR
    have hstep : (if e.prevBlock ≠ s.tip.hash then reorganizeOp env fuel s e
        else (s, none)) = (s2, none) := by rw [if_pos hpb]; exact hrun
    refine ⟨emit (emit (emit
        { s2 with
          entries := s2.entries ++ [e]
          saved := s2.saved ++ [(e.hash, true)]
          tip := e
          height := e.height } (.tipEv e.hash)) (.blockEv e.hash))
        (.connectEv e.hash), ?_, ?_, ?_, ?_, ?_, ?_⟩ <;>
      simp [setBestChainOp, hstep, hv, emit, hpres.invalidEq, hpres.savedEq,
        hpres.entriesEq]

/-- A successful `saveAlternate`: the entry and block are saved without a
coin view and `competitor` is emitted; tip, height and invalid cache are
untouched. -/
theorem saveAlternateOp_ok (env : Env) (s : Cs) (e : Entry)
    (hv : env.vrfy e.hash = none) :
    saveAlternateOp env s e =
      (emit { s with entries := s.entries ++ [e], saved := s.saved ++ [(e.hash, false)] }
        (.competitorEv e.hash), none) := by
  simp [saveAlternateOp, hv]

/-- When every guard of `Chain._add` passes, the iteration reduces to the
placement decision. -/
theorem addOne_guards (env : Env) (fuel : Nat) (s : Cs) (b : Blk) (prev : Entry)
    (initial : Bool) (hgp : GuardsPass env s b prev) :
    addOne env fuel s b initial = placeBlock env fuel s b prev initial := by
  obtain ⟨⟨hg, hp, ho, hi, hip⟩, hsan, hhe, hprev, hcp⟩ := hgp
  rcases hcp with hcp | hcp
  · simp [addOne, hg, hp, seenOrphanCheck, ho, hasInvalidCheck, hi, hip, hsan,
      hhe, hprev, verifyCheckpoint, hcp]
  · cases hchk : s.checkpoints <;>
      simp [addOne, hg, hp, seenOrphanCheck, ho, hasInvalidCheck, hi, hip, hsan,
        hhe, hprev, verifyCheckpoint, hcp, hchk]

/-! ## Claim C7 — the reorganization event stream -/

/-- Claim C7: a reorganization followed by the commit of the new tip emits —
restricted to `connect`/`disconnect` events — exactly one `disconnect` per
rolled-back entry newest-to-oldest, then one `connect` per re-connected entry
oldest-to-newest excluding the new tip, then one final `connect` for the
newly committed block; and the new block ends up as the tip. -/
theorem c7_reorg_event_stream
    (env : Env) (fuel : Nat) (s : Cs) (e fork : Entry) (D C : List Entry)
    (hne : e.prevBlock ≠ s.tip.hash)
    (hf : findForkAux s fuel s.tip e = some fork)
    (hD : walkTo s fuel s.tip fork = some D)
    (hC : walkTo s fuel e fork = some C)
    (hR : ∀ x ∈ (C.drop 1).reverse, env.vrfyCtx x.hash = none)
    (hv : env.vrfyCtx e.hash = none) :
    ∃ tr, (setBestChainOp env fuel s e).1.events = s.events ++ tr ∧
      (setBestChainOp env fuel s e).2 = none ∧
      (setBestChainOp env fuel s e).1.tip = e ∧
      evFilter tr =
        D.map (fun x => Ev.disconnectEv x.hash)
          ++ ((C.drop 1).reverse).map (fun x => Ev.connectEv x.hash)
          ++ [Ev.connectEv e.hash] := by
  obtain ⟨s2, tr, hrun, hpres, hev, hfil⟩ :=
    reorganizeOp_ok env fuel s e fork D C hf hD hC hR
  have hstep : (if e.prevBlock ≠ s.tip.hash then reorganizeOp env fuel s e
      else (s, none)) = (s2, none) := by rw [if_pos hne]; exact hrun
  refine ⟨tr ++ [Ev.tipEv e.hash, Ev.blockEv e.hash, Ev.connectEv e.hash],
    ?_, ?_, ?_, ?_⟩
  · simp [setBestChainOp, hstep, hv, emit, hev]
  · simp [setBestChainOp, hstep, hv]
  · simp [setBestChainOp, hstep, hv, emit]
  · simp only [evFilter] at hfil ⊢
    simp [List.filter_append, hfil, isChainFlowEv]

/-- Witness for C7 at the spec's "simple reorg" scenario: feeding `b3` on top
of the saved alternate branch produces `disconnect a2`, `disconnect a1`,
`connect b1`, `connect b2`, `connect b3`, and tip `b3`. -/
theorem c7_reorg_event_stream_witness :
    ∃ tr, (setBestChainOp envOk 10 sBase b3E).1.events = sBase.events ++ tr ∧
      (setBestChainOp envOk 10 sBase b3E).2 = none ∧
      (setBestChainOp envOk 10 sBase b3E).1.tip = b3E ∧
      evFilter tr =
        [a2E, a1E].map (fun x => Ev.disconnectEv x.hash)
          ++ (([b3E, b2E, b1E].drop 1).reverse).map (fun x => Ev.connectEv x.hash)
          ++ [Ev.connectEv b3E.hash] :=
  c7_reorg_event_stream envOk 10 sBase b3E gE [a2E, a1E] [b3E, b2E, b1E]
    (by decide) (by decide) (by decide) (by decide) (by decide) (by decide)

/-! ## Claim C2 — where a failed reorganization leaves the tip -/

/-- Claim C2, counterexample: reorganizing `sBase` towards `b3` with
contextual verification failing on `b2` (the second entry to reconnect)
surfaces the error but leaves the tip at `b1` (hash 4), not at the fork
(the genesis, hash 1): the chain is not left at the fork block. -/
theorem c2_counterexample :
    (reorganizeOp envB2fail 10 sBase b3E).2 = some errB2 ∧
    (reorganizeOp envB2fail 10 sBase b3E).1.tip.hash = 4 ∧
    findForkAux sBase 10 sBase.tip b3E = some gE ∧
    gE.hash = 1 := by decide

/-- Claim C2 (amended): when a reorganization triggered by a higher-chainwork
competitor fails because an entry to connect fails contextual verification,
the chain is left with its tip at the last successfully reconnected entry of
the new branch — which is the fork block exactly when the first entry to
connect fails — and the error is surfaced through `setBestChain` and `_add`
to the caller of `add`. -/
theorem c2_reorg_failure_tip
    (env : Env) (fuel : Nat) (s : Cs) (e fork bad : Entry)
    (D C R1 R2 : List Entry) (err : VErr)
    (hne : e.prevBlock ≠ s.tip.hash)
    (hf : findForkAux s fuel s.tip e = some fork)
    (hD : walkTo s fuel s.tip fork = some D)
    (hC : walkTo s fuel e fork = some C)
    (hsplit : (C.drop 1).reverse = R1 ++ bad :: R2)
    (hok : ∀ x ∈ R1, env.vrfyCtx x.hash = none)
    (hbad : env.vrfyCtx bad.hash = some err) :
    ∃ s', reorganizeOp env fuel s e = (s', some err) ∧
      setBestChainOp env fuel s e = (s', some err) ∧
      ((R1 = [] ∧ s'.tip.hash = fork.hash) ∨
        (R1 ≠ [] ∧ s'.tip = (R1.getLast?).getD s.tip)) ∧
      (∀ (b : Blk) (prev : Entry) (n : Nat) (racc : Option Entry),
        GuardsPass env s b prev → mkEntry prev b = e →
        s.tip.chainwork < e.chainwork →
        addLoop env fuel (n + 1) s b true racc = (s', some err, racc)) := by
  obtain ⟨s1, tr1, hrun1, hp1, hev1, hfil1, hnil1, hne1⟩ :=
    disconnect_phase fuel D s s s.tip fork hD (preserves_refl s)
  obtain ⟨s', hrun2, htip2⟩ := reconnect_phase_fail env bad R2 err hbad R1 s1 hok
  have hout : reorganizeOp env fuel s e = (s', some err) := by
    simp only [reorganizeOp, hf, hD, hC, hrun1, hsplit, hrun2]
  have hsbc : setBestChainOp env fuel s e = (s', some err) := by
    have hstep : (if e.prevBlock ≠ s.tip.hash then reorganizeOp env fuel s e
        else (s, none)) = (s', some err) := by rw [if_pos hne]; exact hout
    simp [setBestChainOp, hstep]
  have htipfact : (R1 = [] ∧ s'.tip.hash = fork.hash) ∨
      (R1 ≠ [] ∧ s'.tip = (R1.getLast?).getD s.tip) := by
    cases hR1 : R1 with
    | nil =>
      left
      refine ⟨rfl, ?_⟩
      rw [hR1] at htip2
      simp only [List.getLast?_nil, Option.getD_none] at htip2
      rw [htip2]
      cases hD0 : D with
      | nil =>
        have := hnil1 hD0
        rw [this]
        exact walkTo_nil (by rwa [hD0] at hD)
      | cons z zs => exact hne1 (by simp [hD0])
    | cons z zs =>
      right
      refine ⟨by simp, ?_⟩
      rw [hR1] at htip2
      have hsome : ((z :: zs).getLast?).isSome := by simp
      obtain ⟨w, hw⟩ := Option.isSome_iff_exists.mp hsome
      rw [htip2, hw]
      simp
  refine ⟨s', hout, hsbc, htipfact, ?_⟩
  intro b prev n racc hgp hmk hcw
  have hplace : placeBlock env fuel s b prev true =
      (s', some err, none) := by
    have hcw' : ¬ (e.chainwork ≤ s.tip.chainwork) := by omega
    simp only [placeBlock, hmk, hsbc, if_neg hcw']
  rw [show addLoop env fuel (n + 1) s b true racc =
      (match addOne env fuel s b true with
        | (s, some err, _) => (s, some err, racc)
        | (s, none, entryOpt) =>
          let racc2 := match racc with | none => entryOpt | some r => some r
          match resolveOrphan s b.hash with
          | (s, none) =>
            (maybeSync env (pruneOrphans env s), none, racc2)
          | (s, some b') => addLoop env fuel n s b' false racc2) from rfl]
  rw [addOne_guards env fuel s b prev true hgp, hplace]

/-- Witness for the amended C2 theorem at the concrete failing scenario:
`b1` reconnects, `b2` fails, the error surfaces and the tip stays at `b1`. -/
theorem c2_reorg_failure_tip_witness :
    ∃ s', reorganizeOp envB2fail 10 sBase b3E = (s', some errB2) ∧
      setBestChainOp envB2fail 10 sBase b3E = (s', some errB2) ∧
      (([b1E] = [] ∧ s'.tip.hash = gE.hash) ∨
        ([b1E] ≠ [] ∧ s'.tip = ([b1E].getLast?).getD sBase.tip)) ∧
      (∀ (b : Blk) (prev : Entry) (n : Nat) (racc : Option Entry),
        GuardsPass envB2fail sBase b prev → mkEntry prev b = b3E →
        sBase.tip.chainwork < b3E.chainwork →
        addLoop envB2fail 10 (n + 1) sBase b true racc = (s', some errB2, racc)) :=
  c2_reorg_failure_tip envB2fail 10 sBase b3E gE b2E [a2E, a1E] [b3E, b2E, b1E]
    [b1E] [] errB2 (by decide) (by decide) (by decide) (by decide) (by decide)
    (by decide) (by decide)

/-! ## Claim C1 — the chainwork placement decision of `Chain._add` -/

/-- Claim C1: for every block accepted by `Chain._add` whose new chain entry
has chainwork ≤ the tip's (ties included — first seen wins), the chain saves
it as an alternate: entry and block are persisted without connecting inputs
(`saved` records no coin view), `competitor` is emitted, and tip and height
are unchanged.  For every accepted block whose entry's chainwork exceeds the
tip's, `setBestChain` runs and the block becomes the new tip. -/
theorem c1_placement_decision
    (env : Env) (fuel : Nat) (s : Cs) (b1 b2 : Blk) (prev1 prev2 : Entry)
    (hg1 : GuardsPass env s b1 prev1)
    (hcw1 : (mkEntry prev1 b1).chainwork ≤ s.tip.chainwork)
    (hv1 : env.vrfy b1.hash = none)
    (hg2 : GuardsPass env s b2 prev2)
    (hcw2 : s.tip.chainwork < (mkEntry prev2 b2).chainwork)
    (hv2 : env.vrfyCtx b2.hash = none)
    (hor : b2.prevBlock = s.tip.hash ∨
      ∃ fork D C, ReorgSpec env fuel s (mkEntry prev2 b2) fork D C) :
    (addOne env fuel s b1 true =
        (emit { s with
            entries := s.entries ++ [mkEntry prev1 b1]
            saved := s.saved ++ [(b1.hash, false)] } (.competitorEv b1.hash),
          none, some (mkEntry prev1 b1)) ∧
      (addOne env fuel s b1 true).1.tip = s.tip ∧
      (addOne env fuel s b1 true).1.height = s.height ∧
      (addOne env fuel s b1 true).1.saved = s.saved ++ [(b1.hash, false)]) ∧
    (addOne env fuel s b2 true = placeBlock env fuel s b2 prev2 true ∧
      placeBlock env fuel s b2 prev2 true =
        (match setBestChainOp env fuel s (mkEntry prev2 b2) with
          | (t, some err) => (t, some err, none)
          | (t, none) => (t, none, some (mkEntry prev2 b2))) ∧
      (addOne env fuel s b2 true).2.1 = none ∧
      (addOne env fuel s b2 true).1.tip = mkEntry prev2 b2 ∧
      (addOne env fuel s b2 true).1.height = (mkEntry prev2 b2).height ∧
      (addOne env fuel s b2 true).1.saved = s.saved ++ [(b2.hash, true)]) := by
  have halt : addOne env fuel s b1 true =
      (emit { s with
          entries := s.entries ++ [mkEntry prev1 b1]
          saved := s.saved ++ [(b1.hash, false)] } (.competitorEv b1.hash),
        none, some (mkEntry prev1 b1)) := by
    rw [addOne_guards env fuel s b1 prev1 true hg1]
    have hsave := saveAlternateOp_ok env s (mkEntry prev1 b1) hv1
    simp only [placeBlock, if_pos hcw1, hsave]
    rfl
  have hcw2' : ¬ ((mkEntry prev2 b2).chainwork ≤ s.tip.chainwork) := by omega
  have hmatch : placeBlock env fuel s b2 prev2 true =
      (match setBestChainOp env fuel s (mkEntry prev2 b2) with
        | (t, some err) => (t, some err, none)
        | (t, none) => (t, none, some (mkEntry prev2 b2))) := by
    simp only [placeBlock, if_neg hcw2']
    rcases hsb : setBestChainOp env fuel s (mkEntry prev2 b2) with ⟨t, err⟩
    cases err <;> rfl
  obtain ⟨s', hrun, htip, hheight, -, hsaved, -⟩ :=
    setBestChainOp_ok env fuel s (mkEntry prev2 b2) hv2 hor
  have hbest : addOne env fuel s b2 true = (s', none, some (mkEntry prev2 b2)) := by
    rw [addOne_guards env fuel s b2 prev2 true hg2, hmatch, hrun]
  refine ⟨⟨halt, ?_, ?_, ?_⟩, ?_, hmatch, ?_, ?_, ?_, ?_⟩
  · rw [halt]; simp [emit]
  · rw [halt]; simp [emit]
  · rw [halt]; simp [emit]
  · rw [addOne_guards env fuel s b2 prev2 true hg2]
  · rw [hbest]
  · rw [hbest]; exact htip
  · rw [hbest]; exact hheight
  · rw [hbest]; exact hsaved

/-- Witness for C1 at the concrete scenario: `bAlt` (tying chainwork on top
of `a1`) is saved as a competitor leaving the tip alone; `bBest` (higher
chainwork on top of the tip) becomes the new tip through `setBestChain`. -/
theorem c1_placement_decision_witness :
    (addOne envOk 10 sBase bAlt true =
        (emit { sBase with
            entries := sBase.entries ++ [mkEntry a1E bAlt]
            saved := sBase.saved ++ [(bAlt.hash, false)] } (.competitorEv bAlt.hash),
          none, some (mkEntry a1E bAlt)) ∧
      (addOne envOk 10 sBase bAlt true).1.tip = sBase.tip ∧
      (addOne envOk 10 sBase bAlt true).1.height = sBase.height ∧
      (addOne envOk 10 sBase bAlt true).1.saved = sBase.saved ++ [(bAlt.hash, false)]) ∧
    (addOne envOk 10 sBase bBest true = placeBlock envOk 10 sBase bBest a2E true ∧
      placeBlock envOk 10 sBase bBest a2E true =
        (match setBestChainOp envOk 10 sBase (mkEntry a2E bBest) with
          | (t, some err) => (t, some err, none)
          | (t, none) => (t, none, some (mkEntry a2E bBest))) ∧
      (addOne envOk 10 sBase bBest true).2.1 = none ∧
      (addOne envOk 10 sBase bBest true).1.tip = mkEntry a2E bBest ∧
      (addOne envOk 10 sBase bBest true).1.height = (mkEntry a2E bBest).height ∧
      (addOne envOk 10 sBase bBest true).1.saved = sBase.saved ++ [(bBest.hash, true)]) :=
  c1_placement_decision envOk 10 sBase bAlt bBest a1E a2E
    (by decide) (by decide) (by decide) (by decide) (by decide) (by decide)
    (Or.inl (by decide))

/-! ## Claim C3 — invalid-cache insertion iff the failure is not malleated -/

/-- Claim C3: whenever verification fails during `setBestChain`, `reconnect`
or `saveAlternate`, the block's hash is inserted into the invalid cache if
and only if the verification error is not flagged malleated (for a hash not
already cached; the `setBestChain` part is conditional on its reorganization
phase having succeeded, which is what lets the final verification run). -/
theorem c3_invalid_iff_not_malleated
    (env1 env2 env3 : Env) (fuel : Nat) (s1 s2 s3 s3' : Cs) (e1 e2 e3 : Entry)
    (err1 err2 err3 : VErr)
    (h1 : env1.vrfy e1.hash = some err1)
    (hn1 : e1.hash ∉ s1.invalid)
    (h2 : env2.vrfyCtx e2.hash = some err2)
    (hn2 : e2.hash ∉ s2.invalid)
    (hstep3 : (if e3.prevBlock ≠ s3.tip.hash then reorganizeOp env3 fuel s3 e3
        else (s3, none)) = (s3', none))
    (h3 : env3.vrfyCtx e3.hash = some err3)
    (hn3 : e3.hash ∉ s3'.invalid) :
    ((saveAlternateOp env1 s1 e1).2 = some err1 ∧
      (e1.hash ∈ (saveAlternateOp env1 s1 e1).1.invalid ↔ err1.malleated = false)) ∧
    ((reconnectOp env2 s2 e2).2 = some err2 ∧
      (e2.hash ∈ (reconnectOp env2 s2 e2).1.invalid ↔ err2.malleated = false)) ∧
    ((setBestChainOp env3 fuel s3 e3).2 = some err3 ∧
      (e3.hash ∈ (setBestChainOp env3 fuel s3 e3).1.invalid ↔ err3.malleated = false)) := by
  refine ⟨⟨?_, ?_⟩, ⟨?_, ?_⟩, ⟨?_, ?_⟩⟩
  · simp [saveAlternateOp, h1]
  · cases hm : err1.malleated <;>
      simp [saveAlternateOp, h1, hm, emit, setInvalid, hn1]
  · simp [reconnectOp, h2]
  · cases hm : err2.malleated <;>
      simp [reconnectOp, h2, hm, emit, setInvalid, hn2]
  · simp [setBestChainOp, hstep3, h3]
  · cases hm : err3.malleated <;>
      simp [setBestChainOp, hstep3, h3, hm, emit, setInvalid, hn3]

/-- Witness for C3: non-malleated failures on the concrete scenario — the
alternate save of hash 7 under `envVfail`, a reconnect of hash 7 under
`envC7fail`, and a tip-extending `setBestChain` of hash 8 under
`envC8fail` — all insert the hash. -/
theorem c3_invalid_iff_not_malleated_witness :
    ((saveAlternateOp envVfail sBase (mkEntry a1E bAlt)).2 = some errAlt ∧
      ((mkEntry a1E bAlt).hash ∈ (saveAlternateOp envVfail sBase (mkEntry a1E bAlt)).1.invalid ↔
        errAlt.malleated = false)) ∧
    ((reconnectOp envC7fail sBase (mkEntry a1E bAlt)).2 = some errAlt ∧
      ((mkEntry a1E bAlt).hash ∈ (reconnectOp envC7fail sBase (mkEntry a1E bAlt)).1.invalid ↔
        errAlt.malleated = false)) ∧
    ((setBestChainOp envC8fail 10 sBase (mkEntry a2E bBest)).2 = some errAlt ∧
      ((mkEntry a2E bBest).hash ∈ (setBestChainOp envC8fail 10 sBase (mkEntry a2E bBest)).1.invalid ↔
        errAlt.malleated = false)) :=
  c3_invalid_iff_not_malleated envVfail envC7fail envC8fail 10 sBase sBase sBase sBase
    (mkEntry a1E bAlt) (mkEntry a1E bAlt) (mkEntry a2E bBest) errAlt errAlt errAlt
    (by decide) (by decide) (by decide) (by decide) (by decide) (by decide)
    (by decide)

/-! ## Claim C6 — BIP68 sequence locks -/

namespace Locks

/-- One `getLocks` loop step equals the claim's two independent folds, for a
known coin height (≥ 1). -/
theorem lockStep_spec (c : VersionBits.HChain) (chainHeight : Nat)
    (acc : LockTimes) (input : TxIn) (hch : 1 ≤ input.coinHeight) :
    lockStep c chainHeight acc input =
      ⟨specHeightStep acc.height input, specTimeStep c acc.time input⟩ := by
  have hne : ¬ (input.coinHeight = -1) := by omega
  by_cases hd : input.sequence &&& SEQUENCE_DISABLE_FLAG ≠ 0
  · simp [lockStep, specHeightStep, specTimeStep, hd]
  · by_cases ht : input.sequence &&& SEQUENCE_TYPE_FLAG = 0
    · simp [lockStep, specHeightStep, specTimeStep, hd, ht, hne]
    · have hmax : max (input.coinHeight - 1) 0 = input.coinHeight - 1 :=
        max_eq_left (by omega)
      simp [lockStep, specHeightStep, specTimeStep, hd, ht, hne, hmax]

/-- The paired fold of `getLocks` splits into the two claim-side folds. -/
theorem lockFold_spec (c : VersionBits.HChain) (chainHeight : Nat) :
    ∀ (L : List TxIn), (∀ i ∈ L, 1 ≤ i.coinHeight) →
      ∀ (accH accT : Int),
        L.foldl (lockStep c chainHeight) ⟨accH, accT⟩ =
          ⟨L.foldl specHeightStep accH, L.foldl (specTimeStep c) accT⟩ := by
  intro L
  induction L with
  | nil => intro _ accH accT; rfl
  | cons x rest ih =>
    intro hch accH accT
    have hx : 1 ≤ x.coinHeight := hch x (by simp)
    show List.foldl (lockStep c chainHeight) (lockStep c chainHeight ⟨accH, accT⟩ x) rest = _
    rw [lockStep_spec c chainHeight ⟨accH, accT⟩ x hx]
    exact ih (fun i hi => hch i (by simp [hi])) _ _

/-- Claim C6: for a non-coinbase transaction of version ≥ 2 checked with the
`VERIFY_SEQUENCE` flag, over the inputs with known coin heights, `getLocks`
computes exactly the claim's `minHeight`/`minTime` folds, and `verifyLocks`
accepts iff `minHeight < prev.height + 1` and `minTime < MTP(prev)`. -/
theorem c6_sequence_locks (c : VersionBits.HChain)
    (chainHeight prevHeight : Nat) (tx : Tx) (flags : Nat)
    (hcb : tx.coinbase = false)
    (hver : 2 ≤ tx.version)
    (hflag : flags &&& VERIFY_SEQUENCE ≠ 0)
    (hch : ∀ i ∈ tx.inputs, 1 ≤ i.coinHeight) :
    getLocks c chainHeight tx flags = ⟨seqMinHeight tx, seqMinTime c tx⟩ ∧
    (verifyLocks c chainHeight prevHeight tx flags = true ↔
      ((getLocks c chainHeight tx flags).height < (prevHeight : Int) + 1 ∧
        (getLocks c chainHeight tx flags).time < (VersionBits.mtp c prevHeight : Int))) := by
  have hguard : ¬ (tx.coinbase = true ∨ tx.version < 2 ∨ flags &&& VERIFY_SEQUENCE = 0) := by
    push_neg
    exact ⟨by simp [hcb], by omega, hflag⟩
  have hlocks : getLocks c chainHeight tx flags = ⟨seqMinHeight tx, seqMinTime c tx⟩ := by
    rw [getLocks, if_neg hguard]
    exact lockFold_spec c chainHeight tx.inputs hch (-1) (-1)
  refine ⟨hlocks, ?_⟩
  simp only [verifyLocks]
  split_ifs with h1 h2 h3
  · simp only [Bool.false_eq_true, false_iff]
    omega
  · simp only [true_iff]
    omega
  · simp only [Bool.false_eq_true, false_iff]
    omega
  · simp only [true_iff]
    omega

end Locks

/-- Witness for C6 on a concrete chain and transaction with one height-type
and one time-type input. -/
theorem c6_sequence_locks_witness :
    Locks.getLocks ⟨fun h => 10 * h, fun _ => 0⟩ 100
        ⟨false, 2, [⟨5, 10⟩, ⟨2 ^ 22 + 3, 20⟩]⟩ 4 =
      ⟨Locks.seqMinHeight ⟨false, 2, [⟨5, 10⟩, ⟨2 ^ 22 + 3, 20⟩]⟩,
        Locks.seqMinTime ⟨fun h => 10 * h, fun _ => 0⟩
          ⟨false, 2, [⟨5, 10⟩, ⟨2 ^ 22 + 3, 20⟩]⟩⟩ ∧
    (Locks.verifyLocks ⟨fun h => 10 * h, fun _ => 0⟩ 100 50
        ⟨false, 2, [⟨5, 10⟩, ⟨2 ^ 22 + 3, 20⟩]⟩ 4 = true ↔
      ((Locks.getLocks ⟨fun h => 10 * h, fun _ => 0⟩ 100
          ⟨false, 2, [⟨5, 10⟩, ⟨2 ^ 22 + 3, 20⟩]⟩ 4).height < (50 : Int) + 1 ∧
        (Locks.getLocks ⟨fun h => 10 * h, fun _ => 0⟩ 100
          ⟨false, 2, [⟨5, 10⟩, ⟨2 ^ 22 + 3, 20⟩]⟩ 4).time <
          (VersionBits.mtp ⟨fun h => 10 * h, fun _ => 0⟩ 50 : Int))) :=
  Locks.c6_sequence_locks ⟨fun h => 10 * h, fun _ => 0⟩ 100 50
    ⟨false, 2, [⟨5, 10⟩, ⟨2 ^ 22 + 3, 20⟩]⟩ 4
    (by decide) (by decide) (by decide) (by decide)

/-! ## Claim C5 — the BIP9 threshold state machine (`Chain.getState`) -/

namespace VersionBits

/-- The state component of the forward fold ignores the cache it threads. -/
theorem fwdFold_fst (c : HChain) (dep : Deployment) (period threshold : Nat) :
    ∀ (l : List Nat) (st : Nat) (cache : Cache),
      (fwdFold c dep period threshold (st, cache) l).1 =
        l.foldl (stepState c dep period threshold) st := by
  intro l
  induction l with
  | nil => intro st cache; rfl
  | cons h rest ih => intro st cache; exact ih _ _

/-- The empty cache never hits. -/
theorem cacheGet_nil (bit h : Nat) : cacheGet ([] : Cache) bit h = none := rfl

/-- Consecutive boundary heights differ by one period. -/
theorem bh_succ (period k : Nat) : bh period (k + 1) = bh period k + period := by
  unfold bh
  rw [Nat.succ_mul]
  omega

/-- Stepping back one period from a later boundary lands on the previous
boundary. -/
theorem walkStep_bh_succ (period k : Nat) (hper : 0 < period) :
    walkStep period (bh period (k + 1)) = some (bh period k) := by
  have hs := bh_succ period k
  unfold walkStep
  rw [if_neg (by omega)]
  congr 1
  omega

/-- Stepping back from the first boundary leaves the chain. -/
theorem walkStep_bh_zero (period : Nat) (hper : 0 < period) :
    walkStep period (bh period 0) = none := by
  unfold walkStep bh
  rw [if_pos (by omega)]

/-- While every boundary's median time is before the start time, the
specification state machine stays `DEFINED`. -/
theorem spec_defined (c : HChain) (dep : Deployment) (period threshold : Nat)
    (hst : dep.startTime ≤ dep.timeout) :
    ∀ (k : Nat), (∀ i, i ≤ k → mtp c (bh period i) < dep.startTime) →
      bip9SpecState c dep period threshold k = DEFINED := by
  intro k
  induction k with
  | zero =>
    intro hlt
    have h0 := hlt 0 (by omega)
    unfold bip9SpecState stepState
    rw [if_pos (by rfl), if_neg (by omega), if_neg (by omega)]
  | succ k ih =>
    intro hlt
    have hk := hlt (k + 1) (by omega)
    unfold bip9SpecState
    rw [ih (fun i hi => hlt i (by omega))]
    unfold stepState
    rw [if_pos (by rfl), if_neg (by omega), if_neg (by omega)]

/-- The backward walk followed by the forward fold computes the
specification state machine at the boundary, under monotone boundary median
times and an empty initial cache. -/
theorem walk_fold_spec (c : HChain) (dep : Deployment) (period threshold : Nat)
    (hper : 0 < period) (hst : dep.startTime ≤ dep.timeout) :
    ∀ (k : Nat),
      (∀ j, j ≤ k → ∀ i, i ≤ j → mtp c (bh period i) ≤ mtp c (bh period j)) →
      ∀ (fuel : Nat), bh period k < fuel →
      ((getStateWalk c dep period fuel [] (some (bh period k))).2.1).foldl
          (stepState c dep period threshold)
          (getStateWalk c dep period fuel [] (some (bh period k))).1 =
        bip9SpecState c dep period threshold k := by
  intro k
  induction k with
  | zero =>
    intro hmono fuel hfuel
    cases fuel with
    | zero => omega
    | succ m =>
      by_cases hlt : mtp c (bh period 0) < dep.startTime
      · simp only [getStateWalk, cacheGet_nil, if_pos hlt]
        rw [List.foldl_nil]
        exact (spec_defined c dep period threshold hst 0
          (fun i hi => by simpa [Nat.le_zero.mp hi] using hlt)).symm
      · simp only [getStateWalk, cacheGet_nil, if_neg hlt,
          walkStep_bh_zero period hper]
        simp only [List.nil_append, List.foldl_cons, List.foldl_nil]
        rfl
  | succ k ih =>
    intro hmono fuel hfuel
    cases fuel with
    | zero => omega
    | succ m =>
      have hm : bh period k < m := by
        have := bh_succ period k
        omega
      by_cases hlt : mtp c (bh period (k + 1)) < dep.startTime
      · simp only [getStateWalk, cacheGet_nil, if_pos hlt]
        rw [List.foldl_nil]
        refine (spec_defined c dep period threshold hst (k + 1) ?_ ).symm
        intro i hi
        have := hmono (k + 1) (by omega) i hi
        omega
      · simp only [getStateWalk, cacheGet_nil, if_neg hlt,
          walkStep_bh_succ period k hper]
        rw [List.foldl_append, List.foldl_cons, List.foldl_nil]
        rw [ih (fun j hj i hi => hmono j (by omega) i hi) m hm]
        rfl

/-- `boundaryOf` lands on the boundary with index `(p + 1) / period − 1`
whenever a boundary exists at or below `p`. -/
theorem boundaryOf_eq (period p : Nat) (hper : 0 < period) (hp : period ≤ p + 1) :
    boundaryOf period p = some (bh period ((p + 1) / period - 1)) := by
  have hdm := Nat.div_add_mod (p + 1) period
  have hr : (p + 1) % period < period := Nat.mod_lt _ hper
  have hq : 1 ≤ (p + 1) / period := (Nat.one_le_div_iff hper).mpr hp
  have hcomm : (p + 1) / period * period = period * ((p + 1) / period) :=
    Nat.mul_comm _ _
  have hpq : period * 1 ≤ period * ((p + 1) / period) :=
    Nat.mul_le_mul_left period hq
  rw [Nat.mul_one] at hpq
  unfold boundaryOf bh
  by_cases h0 : (p + 1) % period = 0
  · rw [if_pos (by simpa using h0)]
    congr 1
    rw [Nat.sub_one_mul, hcomm]
    omega
  · rw [if_neg (by simpa using h0), if_neg (by omega)]
    congr 1
    rw [Nat.sub_one_mul, hcomm]
    omega

end VersionBits

/-- Claim C5: for every chain entry and deployment, `Chain.getState` (from an
empty state cache, over a chain whose boundary median times are monotone)
returns the BIP9 threshold state evaluated at period boundaries — the fold
of the claimed transition table from genesis to the entry's boundary, a pure
function of the ancestors' data — and the transition table is exactly as
claimed: DEFINED → STARTED at `MTP ≥ startTime` and → FAILED at
`MTP ≥ timeout` (timeout checked first); STARTED → LOCKED_IN when at least
`threshold` of the last period's blocks signal the bit and → FAILED at
`MTP ≥ timeout`; LOCKED_IN → ACTIVE at the next boundary; ACTIVE and FAILED
terminal. -/
theorem c5_bip9_threshold_state (c : VersionBits.HChain)
    (dep : VersionBits.Deployment) (period threshold p : Nat)
    (hper : 0 < period)
    (hst : dep.startTime ≤ dep.timeout)
    (hmono : ∀ j, j ≤ (p + 1) / period - 1 → ∀ i, i ≤ j →
      VersionBits.mtp c (VersionBits.bh period i) ≤
        VersionBits.mtp c (VersionBits.bh period j)) :
    ((VersionBits.getState c dep period threshold [] (some p)).1 =
      if p + 1 < period then VersionBits.DEFINED
      else VersionBits.bip9SpecState c dep period threshold ((p + 1) / period - 1)) ∧
    (∀ h, dep.timeout ≤ VersionBits.mtp c h →
      VersionBits.stepState c dep period threshold VersionBits.DEFINED h =
        VersionBits.FAILED) ∧
    (∀ h, VersionBits.mtp c h < dep.timeout → dep.startTime ≤ VersionBits.mtp c h →
      VersionBits.stepState c dep period threshold VersionBits.DEFINED h =
        VersionBits.STARTED) ∧
    (∀ h, VersionBits.mtp c h < dep.startTime →
      VersionBits.stepState c dep period threshold VersionBits.DEFINED h =
        VersionBits.DEFINED) ∧
    (∀ h, dep.timeout ≤ VersionBits.mtp c h →
      VersionBits.stepState c dep period threshold VersionBits.STARTED h =
        VersionBits.FAILED) ∧
    (∀ h, VersionBits.mtp c h < dep.timeout →
      threshold ≤ VersionBits.countBits c dep period h →
      VersionBits.stepState c dep period threshold VersionBits.STARTED h =
        VersionBits.LOCKED_IN) ∧
    (∀ h, VersionBits.mtp c h < dep.timeout →
      VersionBits.countBits c dep period h < threshold →
      VersionBits.stepState c dep period threshold VersionBits.STARTED h =
        VersionBits.STARTED) ∧
    (∀ h, VersionBits.stepState c dep period threshold VersionBits.LOCKED_IN h =
      VersionBits.ACTIVE) ∧
    (∀ h, VersionBits.stepState c dep period threshold VersionBits.ACTIVE h =
      VersionBits.ACTIVE) ∧
    (∀ h, VersionBits.stepState c dep period threshold VersionBits.FAILED h =
      VersionBits.FAILED) := by
  constructor
  · by_cases hsmall : p + 1 < period
    · have hmod : (p + 1) % period = p + 1 := Nat.mod_eq_of_lt hsmall
      have hb : VersionBits.boundaryOf period p = none := by
        unfold VersionBits.boundaryOf
        rw [if_neg (by simp [hmod]), if_pos hsmall]
      simp only [VersionBits.getState, hb, if_pos hsmall]
    · have hp : period ≤ p + 1 := by omega
      have hb := VersionBits.boundaryOf_eq period p hper hp
      rw [if_neg hsmall]
      simp only [VersionBits.getState, hb]
      rw [VersionBits.fwdFold_fst]
      exact VersionBits.walk_fold_spec c dep period threshold hper hst
        ((p + 1) / period - 1) hmono _ (by omega)
  refine ⟨?_, ?_, ?_, ?_, ?_, ?_, ?_, ?_, ?_⟩
  · intro h h1
    unfold VersionBits.stepState
    rw [if_pos (by decide), if_pos (by omega)]
  · intro h h1 h2
    unfold VersionBits.stepState
    rw [if_pos (by decide), if_neg (by omega), if_pos (by omega)]
  · intro h h1
    unfold VersionBits.stepState
    rw [if_pos (by decide), if_neg (by omega), if_neg (by omega)]
  · intro h h1
    unfold VersionBits.stepState
    rw [if_neg (by decide), if_pos (by decide), if_pos (by omega)]
  · intro h h1 h2
    unfold VersionBits.stepState
    rw [if_neg (by decide), if_pos (by decide), if_neg (by omega), if_pos (by omega)]
  · intro h h1 h2
    unfold VersionBits.stepState
    rw [if_neg (by decide), if_pos (by decide), if_neg (by omega), if_neg (by omega)]
  · intro h
    unfold VersionBits.stepState
    rw [if_neg (by decide), if_neg (by decide), if_pos (by decide)]
  · intro h
    unfold VersionBits.stepState
    rw [if_neg (by decide), if_neg (by decide), if_neg (by decide)]
  · intro h
    unfold VersionBits.stepState
    rw [if_neg (by decide), if_neg (by decide), if_neg (by decide)]

/-- Witness for C5 on a concrete increasing-timestamp chain with period 2,
threshold 2 and a deployment starting at median time 50: `getState` at
entry 5 equals the specification fold at boundary index 2. -/
theorem c5_bip9_threshold_state_witness :
    (VersionBits.getState ⟨fun h => 100 * h, fun _ => 1⟩ ⟨0, 50, 100000⟩ 2 2 []
      (some 5)).1 =
      if 5 + 1 < 2 then VersionBits.DEFINED
      else VersionBits.bip9SpecState ⟨fun h => 100 * h, fun _ => 1⟩
        ⟨0, 50, 100000⟩ 2 2 ((5 + 1) / 2 - 1) :=
  (c5_bip9_threshold_state ⟨fun h => 100 * h, fun _ => 1⟩ ⟨0, 50, 100000⟩ 2 2 5
    (by decide) (by decide) (by decide)).1

/-! ## Claim C10 — dependency order in `Miner.build` -/

namespace Mining

/-- A list with a known last element splits into its front and that
element. -/
theorem getLast?_decomp {α : Type} :
    ∀ {l : List α} {a : α}, l.getLast? = some a → l = l.dropLast ++ [a] := by
  intro l
  induction l with
  | nil => intro a h; simp at h
  | cons x rest ih =>
    intro a h
    cases hr : rest with
    | nil =>
      subst hr
      simp at h
      simp [h]
    | cons y ys =>
      subst hr
      rw [List.getLast?_cons_cons] at h
      have htail := ih h
      show x :: y :: ys = (x :: (y :: ys).dropLast) ++ [a]
      rw [List.cons_append, ← htail]

/-- Membership in a `binaryInsert`. -/
theorem mem_binaryInsert (cmp : MItem → MItem → Int) :
    ∀ (l : List MItem) (x it : MItem),
      it ∈ binaryInsert cmp l x ↔ it = x ∨ it ∈ l := by
  intro l
  induction l with
  | nil => intro x it; simp [binaryInsert]
  | cons y ys ih =>
    intro x it
    unfold binaryInsert
    by_cases hc : cmp x y < 0
    · rw [if_pos hc]
      simp only [List.mem_cons]
    · rw [if_neg hc]
      simp only [List.mem_cons, ih x it]
      tauto

/-- `binaryInsert` permutes the element onto the list. -/
theorem perm_binaryInsert (cmp : MItem → MItem → Int) :
    ∀ (l : List MItem) (x : MItem), List.Perm (binaryInsert cmp l x) (x :: l) := by
  intro l
  induction l with
  | nil => intro x; simp [binaryInsert]
  | cons y ys ih =>
    intro x
    unfold binaryInsert
    by_cases hc : cmp x y < 0
    · rw [if_pos hc]
    · rw [if_neg hc]
      exact (List.Perm.cons y (ih x)).trans (List.Perm.swap x y ys)

/-- Folding `binaryInsert` over a list permutes it onto the accumulator. -/
theorem perm_foldl_binaryInsert (cmp : MItem → MItem → Int) :
    ∀ (l q : List MItem),
      List.Perm (l.foldl (fun acc it => binaryInsert cmp acc it) q) (q ++ l) := by
  intro l
  induction l with
  | nil => intro q; simp
  | cons x xs ih =>
    intro q
    have h1 : (x :: xs).foldl (fun acc it => binaryInsert cmp acc it) q
        = xs.foldl (fun acc it => binaryInsert cmp acc it) (binaryInsert cmp q x) := rfl
    rw [h1]
    refine (ih _).trans ?_
    refine (List.Perm.append_right xs (perm_binaryInsert cmp q x)).trans ?_
    simp only [List.cons_append]
    exact (List.perm_middle).symm

/-- Two mempool items with the same hash are the same item, when the
snapshot's hashes are distinct. -/
theorem hash_inj {pool : List MItem} (hnd : (pool.map MItem.hash).Nodup)
    {a b : MItem} (ha : a ∈ pool) (hb : b ∈ pool) (h : a.hash = b.hash) :
    a = b :=
  List.inj_on_of_nodup_map hnd ha hb h

/-- Looking an item's own hash up in a distinct-hash snapshot returns it. -/
theorem find?_hash_self {pool : List MItem} (hnd : (pool.map MItem.hash).Nodup) :
    ∀ {it : MItem}, it ∈ pool → pool.find? (fun j => j.hash == it.hash) = some it := by
  intro it hit
  have hsome : (pool.find? (fun j => j.hash == it.hash)).isSome := by
    rw [List.find?_isSome]
    exact ⟨it, hit, by simp⟩
  obtain ⟨j, hj⟩ := Option.isSome_iff_exists.mp hsome
  have hjm := List.mem_of_find?_eq_some hj
  have hjh : j.hash = it.hash := by
    have := List.find?_some hj
    simpa using this
  rw [hj, hash_inj hnd hjm hit hjh]

/-- Elements of a dependency chunk fold are items of the folded list that
spend `p` (with `p` in the mempool). -/
theorem foldr_chunk_mem (pool : List MItem) (p : Nat) :
    ∀ (l : List MItem) (x : MItem),
      x ∈ l.foldr (fun it acc =>
        (it.inputs.filter (fun q => q == p && hasTX pool q)).map (fun _ => it) ++ acc) [] →
      x ∈ l ∧ p ∈ x.inputs ∧ hasTX pool p = true := by
  intro l
  induction l with
  | nil => intro x hx; simp at hx
  | cons j rest ih =>
    intro x hx
    simp only [List.foldr_cons, List.mem_append] at hx
    rcases hx with hx | hx
    · obtain ⟨q, hq, hxj⟩ := List.mem_map.mp hx
      obtain ⟨hqin, hqp⟩ := List.mem_filter.mp hq
      have hqe : q = p ∧ hasTX pool q = true := by
        simpa [Bool.and_eq_true] using hqp
      subst hxj
      exact ⟨by simp, hqe.1 ▸ hqin, hqe.1 ▸ hqe.2⟩
    · obtain ⟨h1, h2, h3⟩ := ih x hx
      exact ⟨by simp [h1], h2, h3⟩

/-- `depMap` membership: a dependent of `p` is a mempool item spending `p`. -/
theorem depsOf_mem (pool : List MItem) (p : Nat) (x : MItem)
    (hx : x ∈ depsOf pool p) :
    x ∈ pool ∧ p ∈ x.inputs ∧ hasTX pool p = true := by
  have := foldr_chunk_mem pool p pool x (by simpa [depsOf] using hx)
  exact ⟨this.1, this.2.1, this.2.2⟩

/-- Filtering a constant-map by a predicate. -/
theorem filter_map_const {α β : Type} (pb : β → Bool) (l : List α) (j : β) :
    ((l.map (fun _ => j)).filter pb).length = if pb j then l.length else 0 := by
  induction l with
  | nil => simp
  | cons a l ih => by_cases h : pb j <;> simp [List.filter_cons, h, ih]

/-- The multiplicity of an item in a dependency chunk fold equals the number
of its inputs spending `p`, under distinct snapshot hashes. -/
theorem foldr_chunk_count (pool : List MItem) (p : Nat) (it : MItem)
    (hnd : (pool.map MItem.hash).Nodup) (hit : it ∈ pool) :
    ∀ (l : List MItem), (∀ x ∈ l, x ∈ pool) → (l.map MItem.hash).Nodup →
      ((l.foldr (fun jt acc =>
          (jt.inputs.filter (fun q => q == p && hasTX pool q)).map (fun _ => jt) ++ acc)
          []).filter (fun x => x.hash == it.hash)).length =
        if it ∈ l then (it.inputs.filter (fun q => q == p && hasTX pool q)).length
        else 0 := by
  intro l
  induction l with
  | nil => intro _ _; simp
  | cons j rest ih =>
    intro hsub hlnd
    have hjp : j ∈ pool := hsub j (by simp)
    have hrest := ih (fun x hx => hsub x (by simp [hx])) (by
      simpa using hlnd.of_cons)
    simp only [List.foldr_cons, List.filter_append, List.length_append]
    rw [filter_map_const (fun x => x.hash == it.hash) _ j]
    by_cases hje : j.hash = it.hash
    · have hji : j = it := hash_inj hnd hjp hit hje
      subst hji
      have hnotin : j ∉ rest := by
        intro hmem
        have : j.hash ∈ rest.map MItem.hash := List.mem_map_of_mem _ hmem
        simp only [List.map_cons, List.nodup_cons] at hlnd
        exact hlnd.1 this
      rw [hrest, if_neg hnotin, if_pos (by simp [hje]), if_pos (by simp)]
      omega
    · have hne : j ≠ it := fun h => hje (h ▸ rfl)
      have hiff : it ∈ j :: rest ↔ it ∈ rest := by
        constructor
        · intro hm
          rcases List.mem_cons.mp hm with h | h
          · exact absurd h.symm hne
          · exact h
        · intro hm
          exact List.mem_cons_of_mem j hm
      rw [hrest, if_neg (by simp [hje])]
      by_cases hmem : it ∈ rest
      · rw [if_pos hmem, if_pos (hiff.mpr hmem)]
        omega
      · rw [if_neg hmem, if_neg (fun h => hmem (hiff.mp h))]

/-- `depMap` multiplicity specialised to the snapshot. -/
theorem depsOf_count (pool : List MItem) (p : Nat) (it : MItem)
    (hnd : (pool.map MItem.hash).Nodup) (hit : it ∈ pool) :
    ((depsOf pool p).filter (fun x => x.hash == it.hash)).length =
      (it.inputs.filter (fun q => q == p && hasTX pool q)).length := by
  have := foldr_chunk_count pool p it hnd hit pool (fun x hx => hx) hnd
  rw [if_pos hit] at this
  simpa [depsOf] using this

/-- Appending a new block hash splits the pending-parent count into the
count against the extended block plus the occurrences of that hash. -/
theorem count_split (pool : List MItem) (txs : List Nat) (ph : Nat)
    (hph : ph ∉ txs) :
    ∀ (L : List Nat),
      (L.filter (fun q => hasTX pool q && !(txs.contains q))).length =
        (L.filter (fun q => hasTX pool q && !((txs ++ [ph]).contains q))).length +
        (L.filter (fun q => q == ph && hasTX pool q)).length := by
  intro L
  induction L with
  | nil => simp
  | cons q rest ih =>
    by_cases hq : q = ph
    · subst hq
      have h1 : txs.contains q = false := by simpa using hph
      have h2 : (txs ++ [q]).contains q = true := by simp
      by_cases ha : hasTX pool q = true
      · have c1 : (hasTX pool q && !(txs.contains q)) = true := by
          rw [ha, h1]; rfl
        have c2 : ¬ ((hasTX pool q && !((txs ++ [q]).contains q)) = true) := by
          rw [ha, h2]; simp
        have c3 : ((q == q) && hasTX pool q) = true := by rw [ha]; simp
        rw [List.filter_cons, List.filter_cons, List.filter_cons,
          if_pos c1, if_neg c2, if_pos c3]
        simp only [List.length_cons]
        omega
      · have ha2 : hasTX pool q = false := by
          cases h : hasTX pool q
          · rfl
          · exact absurd h ha
        have c1 : ¬ ((hasTX pool q && !(txs.contains q)) = true) := by
          rw [ha2]; simp
        have c2 : ¬ ((hasTX pool q && !((txs ++ [q]).contains q)) = true) := by
          rw [ha2]; simp
        have c3 : ¬ (((q == q) && hasTX pool q) = true) := by rw [ha2]; simp
        rw [List.filter_cons, List.filter_cons, List.filter_cons,
          if_neg c1, if_neg c2, if_neg c3]
        exact ih
    · have h3 : (txs ++ [ph]).contains q = txs.contains q := by
        simp [hq]
      have c3 : ¬ (((q == ph) && hasTX pool q) = true) := by simp [hq]
      rw [List.filter_cons, List.filter_cons, List.filter_cons, if_neg c3]
      by_cases hb : (hasTX pool q && !(txs.contains q)) = true
      · have hb2 : (hasTX pool q && !((txs ++ [ph]).contains q)) = true := by
          rw [h3]; exact hb
        rw [if_pos hb, if_pos hb2]
        simp only [List.length_cons]
        omega
      · have hb2 : ¬ ((hasTX pool q && !((txs ++ [ph]).contains q)) = true) := by
          rw [h3]; exact hb
        rw [if_neg hb, if_neg hb2]
        exact ih

/-- A singleton appended to a list sits at index `length`. -/
theorem get_concat_length {α : Type} :
    ∀ (l : List α) (a : α) (h : l.length < (l ++ [a]).length),
      (l ++ [a]).get ⟨l.length, h⟩ = a := by
  intro l
  induction l with
  | nil => intro a h; rfl
  | cons x rest ih => intro a h; exact ih a (by simp)

/-- Taking at most the first list's length ignores the appended tail. -/
theorem take_append_left {α : Type} (l1 l2 : List α) (k : Nat) (hk : k ≤ l1.length) :
    (l1 ++ l2).take k = l1.take k := by
  rw [List.take_append_eq_append_take, Nat.sub_eq_zero_of_le hk]
  simp

/-- The counter component of `decDeps`: each occurrence of a hash in the
dependent list decrements its counter once. -/
theorem decDeps_fst (pp : Bool) :
    ∀ (L : List MItem) (dep : Nat → Int) (queue : List MItem) (h : Nat),
      (decDeps L dep queue pp).1 h =
        dep h - ((L.filter (fun x => x.hash == h)).length : Int) := by
  intro L
  induction L with
  | nil => intro dep queue h; simp [decDeps]
  | cons it rest ih =>
    intro dep queue h
    have hstep : decDeps (it :: rest) dep queue pp =
        decDeps rest (fun h2 => if h2 == it.hash then dep it.hash - 1 else dep h2)
          (if dep it.hash - 1 = 0
            then binaryInsert (if pp then cmpPriority else cmpRate) queue it
            else queue) pp := rfl
    rw [hstep, ih]
    by_cases hh : h = it.hash
    · subst hh
      rw [if_pos (show (it.hash == it.hash) = true by simp),
        List.filter_cons, if_pos (show (it.hash == it.hash) = true by simp)]
      simp only [List.length_cons]
      push_cast
      ring
    · have hne2 : it.hash ≠ h := fun he => hh he.symm
      rw [if_neg (show ¬ (h == it.hash) = true by simp [hh]),
        List.filter_cons, if_neg (show ¬ (it.hash == h) = true by simp [hne2])]

/-- Queue membership after `decDeps`, for a dependent list with injective
hashes: an item enters the queue exactly when one of its decrements hits
zero, i.e. when its initial counter lies between 1 and its occurrence
count. -/
theorem decDeps_mem (pp : Bool) :
    ∀ (L : List MItem) (dep : Nat → Int) (queue : List MItem),
      (∀ x ∈ L, ∀ y ∈ L, x.hash = y.hash → x = y) →
      ∀ jt, jt ∈ (decDeps L dep queue pp).2 ↔
        jt ∈ queue ∨
          (jt ∈ L ∧ 1 ≤ dep jt.hash ∧
            dep jt.hash ≤ ((L.filter (fun x => x.hash == jt.hash)).length : Int)) := by
  intro L
  induction L with
  | nil => intro dep queue _ jt; simp [decDeps]
  | cons it rest ih =>
    intro dep queue hinj jt
    have hinj2 : ∀ x ∈ rest, ∀ y ∈ rest, x.hash = y.hash → x = y :=
      fun x hx y hy => hinj x (List.mem_cons_of_mem it hx) y (List.mem_cons_of_mem it hy)
    have hstep : decDeps (it :: rest) dep queue pp =
        decDeps rest (fun h2 => if h2 == it.hash then dep it.hash - 1 else dep h2)
          (if dep it.hash - 1 = 0
            then binaryInsert (if pp then cmpPriority else cmpRate) queue it
            else queue) pp := rfl
    rw [hstep, ih _ _ hinj2 jt]
    by_cases hh : jt.hash = it.hash
    · by_cases hji : jt = it
      · subst hji
        have hfil : ((jt :: rest).filter (fun x => x.hash == jt.hash)).length
            = (rest.filter (fun x => x.hash == jt.hash)).length + 1 := by
          rw [List.filter_cons, if_pos (show (jt.hash == jt.hash) = true by simp)]
          simp
        by_cases hd : dep jt.hash - 1 = 0
        · have hL : jt ∈ (if dep jt.hash - 1 = 0
              then binaryInsert (if pp then cmpPriority else cmpRate) queue jt
              else queue) := by
            rw [if_pos hd, mem_binaryInsert]
            exact Or.inl rfl
          constructor
          · intro _
            refine Or.inr ⟨List.mem_cons_self jt rest, by omega, ?_⟩
            rw [hfil]
            push_cast
            omega
          · intro _
            exact Or.inl hL
        · have hqiff : jt ∈ (if dep jt.hash - 1 = 0
              then binaryInsert (if pp then cmpPriority else cmpRate) queue jt
              else queue) ↔ jt ∈ queue := by
            rw [if_neg hd]
          rw [hqiff, if_pos (show (jt.hash == jt.hash) = true by simp), hfil]
          constructor
          · rintro (h | ⟨hm, h1, h2⟩)
            · exact Or.inl h
            · refine Or.inr ⟨List.mem_cons_self jt rest, by omega, ?_⟩
              push_cast at h2 ⊢
              omega
          · rintro (h | ⟨hm, h1, h2⟩)
            · exact Or.inl h
            · push_cast at h2
              have hge2 : 2 ≤ dep jt.hash := by omega
              have hcr : 0 < (rest.filter (fun x => x.hash == jt.hash)).length := by
                omega
              obtain ⟨x, hx⟩ := List.exists_mem_of_length_pos hcr
              obtain ⟨hxr, hxh⟩ := List.mem_filter.mp hx
              have hxe : x = jt := hinj x (List.mem_cons_of_mem jt hxr) jt
                (List.mem_cons_self jt rest) (by simpa using hxh)
              refine Or.inr ⟨hxe ▸ hxr, by omega, by push_cast; omega⟩
      · have hnm : jt ∉ it :: rest := fun hm =>
          hji (hinj jt hm it (List.mem_cons_self it rest) hh)
        have hnr : jt ∉ rest := fun h => hnm (List.mem_cons_of_mem it h)
        have hq : jt ∈ (if dep it.hash - 1 = 0
              then binaryInsert (if pp then cmpPriority else cmpRate) queue it
              else queue) ↔ jt ∈ queue := by
          by_cases hd : dep it.hash - 1 = 0
          · rw [if_pos hd, mem_binaryInsert]
            constructor
            · rintro (h | h)
              · exact absurd h hji
              · exact h
            · exact Or.inr
          · rw [if_neg hd]
        rw [hq]
        constructor
        · rintro (h | ⟨hm, h1, h2⟩)
          · exact Or.inl h
          · exact absurd hm hnr
        · rintro (h | ⟨hm, h1, h2⟩)
          · exact Or.inl h
          · exact absurd hm hnm
    · have hne : jt ≠ it := fun h => hh (h ▸ rfl)
      have hne2 : it.hash ≠ jt.hash := fun he => hh he.symm
      have hfil : (it :: rest).filter (fun x => x.hash == jt.hash)
          = rest.filter (fun x => x.hash == jt.hash) := by
        rw [List.filter_cons, if_neg (show ¬ (it.hash == jt.hash) = true by simp [hne2])]
      have hq : jt ∈ (if dep it.hash - 1 = 0
            then binaryInsert (if pp then cmpPriority else cmpRate) queue it
            else queue) ↔ jt ∈ queue := by
        by_cases hd : dep it.hash - 1 = 0
        · rw [if_pos hd, mem_binaryInsert]
          constructor
          · rintro (h | h)
            · exact absurd h hne
            · exact h
          · exact Or.inr
        · rw [if_neg hd]
      have hmc : jt ∈ it :: rest ↔ jt ∈ rest := by
        constructor
        · intro h
          rcases List.mem_cons.mp h with h | h
          · exact absurd h hne
          · exact h
        · exact List.mem_cons_of_mem it
      rw [hq, if_neg (show ¬ (jt.hash == it.hash) = true by simp [hh]), hfil, hmc]

/-- Distinctness of queue hashes survives `decDeps`: an item is pushed only
when its counter hits zero, and counters of hashes already in the queue
stay at most zero. -/
theorem decDeps_nodup (pp : Bool) :
    ∀ (L : List MItem) (dep : Nat → Int) (queue : List MItem),
      (queue.map MItem.hash).Nodup →
      (∀ x ∈ L, x.hash ∈ queue.map MItem.hash → dep x.hash ≤ 0) →
      ((decDeps L dep queue pp).2.map MItem.hash).Nodup := by
  intro L
  induction L with
  | nil => intro dep queue hnd _; exact hnd
  | cons it rest ih =>
    intro dep queue hnd hcond
    have hstep : decDeps (it :: rest) dep queue pp =
        decDeps rest (fun h2 => if h2 == it.hash then dep it.hash - 1 else dep h2)
          (if dep it.hash - 1 = 0
            then binaryInsert (if pp then cmpPriority else cmpRate) queue it
            else queue) pp := rfl
    rw [hstep]
    by_cases hd : dep it.hash - 1 = 0
    · rw [if_pos hd]
      have hnotin : it.hash ∉ queue.map MItem.hash := by
        intro hm
        have := hcond it (List.mem_cons_self it rest) hm
        omega
      have hperm : List.Perm
          ((binaryInsert (if pp then cmpPriority else cmpRate) queue it).map MItem.hash)
          (it.hash :: queue.map MItem.hash) := by
        have h := perm_binaryInsert (if pp then cmpPriority else cmpRate) queue it
        simpa using h.map MItem.hash
      have hnd2 : ((binaryInsert (if pp then cmpPriority else cmpRate) queue it).map
          MItem.hash).Nodup := by
        rw [List.Perm.nodup_iff hperm]
        exact List.nodup_cons.mpr ⟨hnotin, hnd⟩
      apply ih _ _ hnd2
      intro x hx hm
      by_cases hxh : x.hash = it.hash
      · simp only [hxh, beq_self_eq_true, if_true]
        omega
      · have hbe : (x.hash == it.hash) = false := by
          rw [beq_eq_false_iff_ne]; exact hxh
        have hm2 : x.hash ∈ queue.map MItem.hash := by
          have h := (List.Perm.mem_iff hperm).mp hm
          rcases List.mem_cons.mp h with h | h
          · exact absurd h hxh
          · exact h
        have hle := hcond x (List.mem_cons_of_mem it hx) hm2
        simpa [hbe] using hle
    · rw [if_neg hd]
      apply ih _ _ hnd
      intro x hx hm
      have hbase : dep x.hash ≤ 0 := hcond x (List.mem_cons_of_mem it hx) hm
      by_cases hxh : x.hash = it.hash
      · have hle : dep it.hash ≤ 0 := hxh ▸ hbase
        simp only [hxh, beq_self_eq_true, if_true]
        omega
      · have hbe : (x.hash == it.hash) = false := by
          rw [beq_eq_false_iff_ne]; exact hxh
        simpa [hbe] using hbase

/-- A count of zero pending parents puts every in-mempool parent in the
block. -/
theorem mem_of_remCount_zero (pool : List MItem) (txs : List Nat) (jt : MItem)
    (h : remCount pool txs jt = 0) :
    ∀ q ∈ jt.inputs, hasTX pool q = true → q ∈ txs := by
  intro q hq hh
  unfold remCount at h
  rw [List.length_eq_zero, List.filter_eq_nil] at h
  have hp := h q hq
  by_contra hqn
  apply hp
  simp [hh, hqn]

/-- Conversely, when every in-mempool parent is in the block the pending
count is zero. -/
theorem remCount_zero_of_parents (pool : List MItem) (txs : List Nat) (jt : MItem)
    (h : ∀ q ∈ jt.inputs, hasTX pool q = true → q ∈ txs) :
    remCount pool txs jt = 0 := by
  unfold remCount
  rw [List.length_eq_zero, List.filter_eq_nil]
  intro q hq hc
  rw [Bool.and_eq_true] at hc
  have h1 := hc.1
  have h2 := hc.2
  have hmem := h q hq h1
  simp [hmem] at h2

/-- Under the loop invariant a block member has no pending parents at
all. -/
theorem remCount_zero_of_mem_txs (pool : List MItem) (st : BuildSt)
    (hInv : Inv pool st) (jt : MItem) (hjt : jt ∈ pool)
    (hmem : jt.hash ∈ st.txs) : remCount pool st.txs jt = 0 := by
  obtain ⟨⟨k, hk⟩, hget⟩ := List.mem_iff_get.mp hmem
  apply remCount_zero_of_parents
  intro q hq hh
  have hin := hInv.ordered k hk jt hjt hget.symm q hq hh
  exact List.take_subset k st.txs hin

/-- Dropping the popped item preserves the invariant (the skip branches of
the selection loop). -/
theorem inv_dropLast (pool : List MItem) (st : BuildSt) (hInv : Inv pool st) :
    Inv pool { st with queue := st.queue.dropLast } := by
  have hsub : ∀ jt ∈ st.queue.dropLast, jt ∈ st.queue :=
    fun jt hjt => (List.dropLast_sublist st.queue).subset hjt
  refine ⟨?_, ?_, ?_, hInv.txsPool, hInv.txsNd, hInv.depEq, ?_, hInv.ordered⟩
  · exact fun it hit => hInv.qPool it (hsub it hit)
  · exact List.Nodup.sublist
      (List.Sublist.map MItem.hash (List.dropLast_sublist st.queue)) hInv.qNd
  · exact fun it hit => hInv.qNotTx it (hsub it hit)
  · exact fun it hit => hInv.qDep0 it (hsub it hit)

/-- Re-queueing the popped item under the rate comparator preserves the
invariant (the phase-flip branch of the selection loop). -/
theorem inv_flip (pool : List MItem) (st : BuildSt) (item : MItem)
    (hInv : Inv pool st) (hlast : st.queue.getLast? = some item) :
    Inv pool { st with queue := binaryInsert cmpRate st.queue.dropLast item
                       prioPhase := false } := by
  have hqdecomp := getLast?_decomp hlast
  have hitem_q : item ∈ st.queue := by
    rw [hqdecomp]
    exact List.mem_append_right _ (by simp)
  have hsub : ∀ jt ∈ st.queue.dropLast, jt ∈ st.queue :=
    fun jt hjt => (List.dropLast_sublist st.queue).subset hjt
  have hmem : ∀ jt, jt ∈ binaryInsert cmpRate st.queue.dropLast item → jt ∈ st.queue := by
    intro jt hjt
    rcases (mem_binaryInsert cmpRate _ item jt).mp hjt with h | h
    · exact h ▸ hitem_q
    · exact hsub jt h
  have hperm : List.Perm ((binaryInsert cmpRate st.queue.dropLast item).map MItem.hash)
      (st.queue.map MItem.hash) := by
    have h1 := (perm_binaryInsert cmpRate st.queue.dropLast item).map MItem.hash
    have h2 : List.Perm (item :: st.queue.dropLast) st.queue := by
      conv_rhs => rw [hqdecomp]
      exact (List.perm_append_singleton item st.queue.dropLast).symm
    have h1b : List.Perm ((binaryInsert cmpRate st.queue.dropLast item).map MItem.hash)
        (item.hash :: st.queue.dropLast.map MItem.hash) := by simpa using h1
    exact h1b.trans (by simpa using h2.map MItem.hash)
  refine ⟨?_, ?_, ?_, hInv.txsPool, hInv.txsNd, hInv.depEq, ?_, hInv.ordered⟩
  · exact fun jt hjt => hInv.qPool jt (hmem jt hjt)
  · exact (List.Perm.nodup_iff hperm).mpr hInv.qNd
  · exact fun jt hjt => hInv.qNotTx jt (hmem jt hjt)
  · exact fun jt hjt => hInv.qDep0 jt (hmem jt hjt)

/-- The acceptance branch of the selection loop preserves the invariant:
the popped item joins the block, its dependents' counters drop once per
spending input, and exactly the dependents whose counter hits zero join the
queue. -/
theorem inv_accept (pool : List MItem) (st : BuildSt) (item : MItem)
    (hnd : (pool.map MItem.hash).Nodup) (hInv : Inv pool st)
    (hlast : st.queue.getLast? = some item) (w so f : Nat) :
    Inv pool
      { queue := (decDeps (depsOf pool item.hash) st.dep st.queue.dropLast st.prioPhase).2
        dep := (decDeps (depsOf pool item.hash) st.dep st.queue.dropLast st.prioPhase).1
        txs := st.txs ++ [item.hash]
        weight := w
        sigops := so
        fees := f
        prioPhase := st.prioPhase } := by
  have hqdecomp := getLast?_decomp hlast
  have hitem_q : item ∈ st.queue := by
    rw [hqdecomp]
    exact List.mem_append_right _ (by simp)
  have hitem_pool : item ∈ pool := hInv.qPool item hitem_q
  have hph_notx : item.hash ∉ st.txs := hInv.qNotTx item hitem_q
  have hhasph : hasTX pool item.hash = true := by
    unfold hasTX
    rw [List.any_eq_true]
    exact ⟨item, hitem_pool, by simp⟩
  have hdl_sub : ∀ jt ∈ st.queue.dropLast, jt ∈ st.queue :=
    fun jt hjt => (List.dropLast_sublist st.queue).subset hjt
  have hdl_nd : (st.queue.dropLast.map MItem.hash).Nodup :=
    List.Nodup.sublist (List.Sublist.map MItem.hash (List.dropLast_sublist st.queue))
      hInv.qNd
  have hitem_dl : item.hash ∉ st.queue.dropLast.map MItem.hash := by
    have h := hInv.qNd
    rw [hqdecomp, List.map_append] at h
    have h2 := (List.nodup_append.mp h).2.2
    intro hm
    exact h2 hm (by simp)
  have hinjL : ∀ x ∈ depsOf pool item.hash, ∀ y ∈ depsOf pool item.hash,
      x.hash = y.hash → x = y :=
    fun x hx y hy hxy =>
      hash_inj hnd (depsOf_mem pool item.hash x hx).1 (depsOf_mem pool item.hash y hy).1 hxy
  have hmemiff := decDeps_mem st.prioPhase (depsOf pool item.hash) st.dep
    st.queue.dropLast hinjL
  have hfst := decDeps_fst st.prioPhase (depsOf pool item.hash) st.dep st.queue.dropLast
  have hcondn : ∀ x ∈ depsOf pool item.hash,
      x.hash ∈ st.queue.dropLast.map MItem.hash → st.dep x.hash ≤ 0 := by
    intro x hx hm
    obtain ⟨jt, hjt, hjh⟩ := List.mem_map.mp hm
    have h0 := hInv.qDep0 jt (hdl_sub jt hjt)
    rw [← hjh]
    omega
  have hdepnew : ∀ jt ∈ pool,
      (decDeps (depsOf pool item.hash) st.dep st.queue.dropLast st.prioPhase).1 jt.hash
        = (remCount pool (st.txs ++ [item.hash]) jt : Int) := by
    intro jt hjt
    rw [hfst jt.hash, hInv.depEq jt hjt, depsOf_count pool item.hash jt hnd hjt]
    have hsplit : remCount pool st.txs jt
        = remCount pool (st.txs ++ [item.hash]) jt
          + (jt.inputs.filter (fun q => q == item.hash && hasTX pool q)).length :=
      count_split pool st.txs item.hash hph_notx jt.inputs
    omega
  have hpush_pool : ∀ jt ∈ depsOf pool item.hash, jt ∈ pool :=
    fun jt hjt => (depsOf_mem pool item.hash jt hjt).1
  have hpush_nph : ∀ jt ∈ depsOf pool item.hash, jt.hash ≠ item.hash := by
    intro jt hjt he
    have hji : jt = item := hash_inj hnd (hpush_pool jt hjt) hitem_pool he
    subst hji
    have hmem2 := (depsOf_mem pool jt.hash jt hjt).2.1
    have h0 : st.dep jt.hash = 0 := hInv.qDep0 jt hitem_q
    have heq := hInv.depEq jt hitem_pool
    have hm : jt.hash ∈ jt.inputs.filter
        (fun q => hasTX pool q && !(st.txs.contains q)) := by
      rw [List.mem_filter]
      exact ⟨hmem2, by simp [hhasph, hph_notx]⟩
    have hpos : 0 < remCount pool st.txs jt := by
      unfold remCount
      exact List.length_pos_of_mem hm
    omega
  have hpush_notx : ∀ jt ∈ depsOf pool item.hash,
      1 ≤ st.dep jt.hash → jt.hash ∉ st.txs := by
    intro jt hjt h1 hmem
    have hjp := hpush_pool jt hjt
    have h0 := remCount_zero_of_mem_txs pool st hInv jt hjp hmem
    have heq := hInv.depEq jt hjp
    omega
  refine ⟨?_, ?_, ?_, ?_, ?_, ?_, ?_, ?_⟩
  · intro jt hjt
    rcases (hmemiff jt).mp hjt with h | ⟨hL, _, _⟩
    · exact hInv.qPool jt (hdl_sub jt h)
    · exact hpush_pool jt hL
  · exact decDeps_nodup st.prioPhase (depsOf pool item.hash) st.dep
      st.queue.dropLast hdl_nd hcondn
  · intro jt hjt
    have hgoal : jt.hash ∉ st.txs ∧ jt.hash ≠ item.hash →
        jt.hash ∉ st.txs ++ [item.hash] := by
      rintro ⟨h1, h2⟩ hm
      rcases List.mem_append.mp hm with h | h
      · exact h1 h
      · exact h2 (by simpa using h)
    rcases (hmemiff jt).mp hjt with h | ⟨hL, h1, _⟩
    · refine hgoal ⟨hInv.qNotTx jt (hdl_sub jt h), ?_⟩
      exact fun he => hitem_dl (he ▸ List.mem_map_of_mem MItem.hash h)
    · exact hgoal ⟨hpush_notx jt hL h1, hpush_nph jt hL⟩
  · intro h hh
    rcases List.mem_append.mp hh with hm | hm
    · exact hInv.txsPool h hm
    · have he : h = item.hash := by simpa using hm
      exact ⟨item, hitem_pool, he.symm⟩
  · rw [List.nodup_append]
    refine ⟨hInv.txsNd, List.nodup_singleton _, ?_⟩
    intro a ha hb
    have he : a = item.hash := by simpa using hb
    subst he
    exact hph_notx ha
  · intro jt hjt
    exact hdepnew jt hjt
  · intro jt hjt
    rcases (hmemiff jt).mp hjt with h | ⟨hL, h1, h2⟩
    · have hjp := hInv.qPool jt (hdl_sub jt h)
      have h0 := hInv.qDep0 jt (hdl_sub jt h)
      have heq := hInv.depEq jt hjp
      have hsplit : remCount pool st.txs jt
          = remCount pool (st.txs ++ [item.hash]) jt
            + (jt.inputs.filter (fun q => q == item.hash && hasTX pool q)).length :=
        count_split pool st.txs item.hash hph_notx jt.inputs
      have hnewdep := hdepnew jt hjp
      show (decDeps (depsOf pool item.hash) st.dep st.queue.dropLast st.prioPhase).1
        jt.hash = 0
      omega
    · have hjp := hpush_pool jt hL
      have heq := hInv.depEq jt hjp
      have hcnt := depsOf_count pool item.hash jt hnd hjp
      have hnewdep := hdepnew jt hjp
      have hfst2 := hfst jt.hash
      show (decDeps (depsOf pool item.hash) st.dep st.queue.dropLast st.prioPhase).1
        jt.hash = 0
      omega
  · intro k hk it2 hpool2 hhash2 q hq hhas
    by_cases hklt : k < st.txs.length
    · have hget : (st.txs ++ [item.hash]).get ⟨k, hk⟩ = st.txs.get ⟨k, hklt⟩ :=
        List.get_append k hklt
      have hord := hInv.ordered k hklt it2 hpool2 (by rw [← hget]; exact hhash2) q hq hhas
      rw [take_append_left st.txs [item.hash] k (le_of_lt hklt)]
      exact hord
    · have hklen : k = st.txs.length := by
        have hlt : k < st.txs.length + 1 := by simpa using hk
        omega
      subst hklen
      have hget : (st.txs ++ [item.hash]).get ⟨st.txs.length, hk⟩ = item.hash :=
        get_concat_length st.txs item.hash hk
      have hit2 : it2 = item := hash_inj hnd hpool2 hitem_pool (by rw [hhash2, hget])
      have hq2 : q ∈ item.inputs := hit2 ▸ hq
      rw [take_append_left st.txs [item.hash] st.txs.length (le_refl _), List.take_length]
      have h0 : st.dep item.hash = 0 := hInv.qDep0 item hitem_q
      have heq := hInv.depEq item hitem_pool
      have hrc : remCount pool st.txs item = 0 := by omega
      exact mem_of_remCount_zero pool st.txs item hrc q hq2 hhas

/-- One unfolding of the selection loop when the queue is nonempty. -/
theorem buildLoop_succ_some (pool : List MItem) (opts : MinerOpts) (n : Nat)
    (st : BuildSt) (item : MItem) (h : st.queue.getLast? = some item) :
    buildLoop pool opts (n + 1) st =
      (if item.fin = false then
        buildLoop pool opts n { st with queue := st.queue.dropLast }
      else if opts.witness = false ∧ item.wit = true then
        buildLoop pool opts n { st with queue := st.queue.dropLast }
      else if opts.maxWeight < st.weight + item.weight then
        buildLoop pool opts n { st with queue := st.queue.dropLast }
      else if opts.maxSigops < st.sigops + item.sigops then
        buildLoop pool opts n { st with queue := st.queue.dropLast }
      else if st.prioPhase = true ∧
          (opts.priorityWeight < st.weight + item.weight ∨ item.prio < opts.minPriority) then
        buildLoop pool opts n
          { st with queue := binaryInsert cmpRate st.queue.dropLast item
                    prioPhase := false }
      else if st.prioPhase = false ∧ item.free = true ∧
          opts.minWeight ≤ st.weight + item.weight then
        buildLoop pool opts n { st with queue := st.queue.dropLast }
      else
        buildLoop pool opts n
          { queue := (decDeps (depsOf pool item.hash) st.dep st.queue.dropLast
              st.prioPhase).2
            dep := (decDeps (depsOf pool item.hash) st.dep st.queue.dropLast
              st.prioPhase).1
            txs := st.txs ++ [item.hash]
            weight := st.weight + item.weight
            sigops := st.sigops + item.sigops
            fees := st.fees + item.fee
            prioPhase := st.prioPhase }) := by
  rw [buildLoop, h]

/-- The selection loop preserves the invariant for any fuel. -/
theorem inv_buildLoop (pool : List MItem) (opts : MinerOpts)
    (hnd : (pool.map MItem.hash).Nodup) :
    ∀ (fuel : Nat) (st : BuildSt), Inv pool st → Inv pool (buildLoop pool opts fuel st) := by
  intro fuel
  induction fuel with
  | zero => intro st h; exact h
  | succ n ih =>
    intro st h
    cases hlast : st.queue.getLast? with
    | none =>
      have heq : buildLoop pool opts (n + 1) st = st := by
        rw [buildLoop, hlast]
      rw [heq]
      exact h
    | some item =>
      rw [buildLoop_succ_some pool opts n st item hlast]
      by_cases h1 : item.fin = false
      · rw [if_pos h1]
        exact ih _ (inv_dropLast pool st h)
      · rw [if_neg h1]
        by_cases h2 : opts.witness = false ∧ item.wit = true
        · rw [if_pos h2]
          exact ih _ (inv_dropLast pool st h)
        · rw [if_neg h2]
          by_cases h3 : opts.maxWeight < st.weight + item.weight
          · rw [if_pos h3]
            exact ih _ (inv_dropLast pool st h)
          · rw [if_neg h3]
            by_cases h4 : opts.maxSigops < st.sigops + item.sigops
            · rw [if_pos h4]
              exact ih _ (inv_dropLast pool st h)
            · rw [if_neg h4]
              by_cases h5 : st.prioPhase = true ∧
                  (opts.priorityWeight < st.weight + item.weight ∨
                    item.prio < opts.minPriority)
              · rw [if_pos h5]
                exact ih _ (inv_flip pool st item h hlast)
              · rw [if_neg h5]
                by_cases h6 : st.prioPhase = false ∧ item.free = true ∧
                    opts.minWeight ≤ st.weight + item.weight
                · rw [if_pos h6]
                  exact ih _ (inv_dropLast pool st h)
                · rw [if_neg h6]
                  exact ih _ (inv_accept pool st item hnd h hlast _ _ _)

/-- The initial build state satisfies the loop invariant. -/
theorem inv_init (pool : List MItem) (hnd : (pool.map MItem.hash).Nodup) :
    Inv pool (initSt pool) := by
  have hperm : List.Perm (initQueue pool)
      (pool.filter (fun it => initDep pool it = 0)) := by
    have h := perm_foldl_binaryInsert cmpPriority
      (pool.filter (fun it => initDep pool it = 0)) []
    simpa [initQueue] using h
  have hqsub : ∀ it ∈ initQueue pool,
      it ∈ pool.filter (fun it => initDep pool it = 0) :=
    fun it hit => (List.Perm.mem_iff hperm).mp hit
  have hdep : ∀ it ∈ pool, (initSt pool).dep it.hash = (initDep pool it : Int) := by
    intro it hit
    have hfind := find?_hash_self hnd hit
    simp [initSt, hfind]
  have hrem : ∀ it : MItem, remCount pool [] it = initDep pool it := by
    intro it
    unfold remCount initDep
    have hc : List.filter (fun q => hasTX pool q && !([] : List Nat).contains q)
        it.inputs = List.filter (fun q => hasTX pool q) it.inputs :=
      List.filter_congr (fun q _ => by simp)
    rw [hc]
  refine ⟨?_, ?_, ?_, ?_, ?_, ?_, ?_, ?_⟩
  · intro it hit
    exact (List.mem_filter.mp (hqsub it hit)).1
  · have hsf : ((pool.filter (fun it => initDep pool it = 0)).map MItem.hash).Nodup :=
      List.Nodup.sublist (List.Sublist.map MItem.hash (List.filter_sublist pool)) hnd
    exact (List.Perm.nodup_iff (List.Perm.map MItem.hash hperm)).mpr hsf
  · intro it hit
    simp [initSt]
  · intro h hh
    simp [initSt] at hh
  · simp [initSt]
  · intro it hit
    have h1 := hdep it hit
    rw [h1]
    have h3 : remCount pool (initSt pool).txs it = initDep pool it := hrem it
    rw [h3]
  · intro it hit
    have hf := hqsub it hit
    have hmem := (List.mem_filter.mp hf).1
    have hz : initDep pool it = 0 := by
      have hp := (List.mem_filter.mp hf).2
      simpa using hp
    rw [hdep it hmem, hz]
  · intro k hk
    simp [initSt] at hk

/-- Claim C10: every block template assembled by `Miner.build` lists
transactions in dependency order.  For a mempool snapshot with distinct
txids, in the transaction list produced by the selection loop (any fuel,
any options): (1) a transaction is pushed into the block only once its
count of in-mempool parents not yet in the block has reached zero; (2)
every in-mempool ancestor of a listed transaction appears at an earlier
index; (3) a transaction with an in-mempool ancestor that was not included
is itself never included. -/
theorem c10_dependency_order (pool : List MItem) (opts : MinerOpts) (fuel : Nat)
    (hnd : (pool.map MItem.hash).Nodup)
    (txs : List Nat) (htxs : txs = (buildLoop pool opts fuel (initSt pool)).txs) :
    (∀ (k : Nat) (hk : k < txs.length) (it : MItem),
        it ∈ pool → it.hash = txs.get ⟨k, hk⟩ →
        remCount pool (txs.take k) it = 0) ∧
    (∀ (k : Nat) (hk : k < txs.length) (a : Nat),
        AncestorOf pool a (txs.get ⟨k, hk⟩) → a ∈ txs.take k) ∧
    (∀ (a h : Nat), AncestorOf pool a h → a ∉ txs → h ∉ txs) := by
  have hInv : Inv pool (buildLoop pool opts fuel (initSt pool)) :=
    inv_buildLoop pool opts hnd fuel (initSt pool) (inv_init pool hnd)
  subst htxs
  have part1 : ∀ (k : Nat)
      (hk : k < (buildLoop pool opts fuel (initSt pool)).txs.length) (it : MItem),
      it ∈ pool → it.hash = (buildLoop pool opts fuel (initSt pool)).txs.get ⟨k, hk⟩ →
      remCount pool ((buildLoop pool opts fuel (initSt pool)).txs.take k) it = 0 := by
    intro k hk it hpool hhash
    exact remCount_zero_of_parents pool _ it
      (fun q hq hh => hInv.ordered k hk it hpool hhash q hq hh)
  have part2 : ∀ (k : Nat)
      (hk : k < (buildLoop pool opts fuel (initSt pool)).txs.length) (a : Nat),
      AncestorOf pool a ((buildLoop pool opts fuel (initSt pool)).txs.get ⟨k, hk⟩) →
      a ∈ (buildLoop pool opts fuel (initSt pool)).txs.take k := by
    suffices H : ∀ (a h : Nat), AncestorOf pool a h →
        ∀ (k : Nat) (hk : k < (buildLoop pool opts fuel (initSt pool)).txs.length),
        h = (buildLoop pool opts fuel (initSt pool)).txs.get ⟨k, hk⟩ →
        a ∈ (buildLoop pool opts fuel (initSt pool)).txs.take k by
      intro k hk a ha
      exact H a _ ha k hk rfl
    intro a h hanc
    induction hanc with
    | @parent a2 h2 it hit hhash hain hhas =>
      intro k hk hget
      exact hInv.ordered k hk it hit (hhash.trans hget) _ hain hhas
    | @trans a2 b2 c2 hab hbc ihab ihbc =>
      intro k hk hget
      have hbmem := ihbc k hk hget
      obtain ⟨⟨j, hj⟩, hjb⟩ := List.mem_iff_get.mp hbmem
      have hjk : j < k := by
        rw [List.length_take] at hj
        exact lt_of_lt_of_le hj (min_le_left _ _)
      have hjT : j < (buildLoop pool opts fuel (initSt pool)).txs.length := by
        rw [List.length_take] at hj
        exact lt_of_lt_of_le hj (min_le_right _ _)
      have hgetj := List.get_take (buildLoop pool opts fuel (initSt pool)).txs hjT hjk
      have hbj : _ = (buildLoop pool opts fuel (initSt pool)).txs.get ⟨j, hjT⟩ :=
        (hgetj.trans hjb).symm
      have haj := ihab j hjT hbj
      have htt : ((buildLoop pool opts fuel (initSt pool)).txs.take k).take j
          = (buildLoop pool opts fuel (initSt pool)).txs.take j := by
        rw [List.take_take, min_eq_left (le_of_lt hjk)]
      have hsub : a2 ∈ ((buildLoop pool opts fuel (initSt pool)).txs.take k).take j := by
        rw [htt]
        exact haj
      exact List.take_subset j _ hsub
  refine ⟨part1, part2, ?_⟩
  intro a h hanc hna hmem
  obtain ⟨⟨k, hk⟩, hkh⟩ := List.mem_iff_get.mp hmem
  have hanc2 : AncestorOf pool a
      ((buildLoop pool opts fuel (initSt pool)).txs.get ⟨k, hk⟩) := hkh.symm ▸ hanc
  exact hna (List.take_subset k _ (part2 k hk a hanc2))


end Mining

/-- Witness for C10 on the concrete two-transaction snapshot: `itB` spends
`itA`, the snapshot's txids are distinct, and the third conjunct holds for
the template built with fuel 4. -/
theorem c10_dependency_order_witness :
    ((pool10.map Mining.MItem.hash).Nodup) ∧
    (∀ (a h : Nat), Mining.AncestorOf pool10 a h →
      a ∉ (Mining.buildLoop pool10 opts10 4 (Mining.initSt pool10)).txs →
      h ∉ (Mining.buildLoop pool10 opts10 4 (Mining.initSt pool10)).txs) :=
  ⟨by decide,
    (Mining.c10_dependency_order pool10 opts10 4 (by decide)
      (Mining.buildLoop pool10 opts10 4 (Mining.initSt pool10)).txs rfl).2.2⟩

end BCoinPurse
